import Mathlib

/-!
Verification of the family-tree layout engine and shortest-path search
(`src/family-tree.js`) against its natural-language specification.

Shallow embedding conventions:
* an entity record (`Person`) carries the fields the engine reads: `name`,
  `littles`, `bigs`, `families`;
* JavaScript `Map.set` semantics (last write wins) are modelled by left folds,
  and `Set` insertion order by `addIfNew`;
* JavaScript numbers are modelled by `ℚ`; the sources of `NaN` / `Infinity`
  (`Math.max` of an empty spread, division by a zero count) are modelled by
  `Option`, with `none` standing for a non-finite or undefined value;
* the mutable recursions (`calculateDepth`, `placeSubtree`, the BFS loop) are
  modelled by fuel-indexed structural recursions returning `none` when the
  fuel runs out; termination of the JavaScript code corresponds to the
  theorems showing the canonical fuel is never exhausted;
* `localeCompare`-based sorts are modelled by the codepoint order on `String`,
  and JavaScript's stable `Array.prototype.sort` by `List.insertionSort`.
-/

namespace FamilyTree

/-- An entity record as read by the engine: identity, sponsored entities
("littles"), sponsoring entities ("bigs"), declared cluster names
("families").  Missing fields in the raw data default to empty lists. -/
structure Person where
  name : String
  littles : List String
  bigs : List String
  families : List String
deriving DecidableEq, Repr

abbrev People := List Person

/-- `nodeMap.get(name)` — the record a `Map` built by a `forEach`/`set` pass
returns: the last record with that name. -/
def personFor (people : People) (n : String) : Option Person :=
  people.foldl (fun acc p => if p.name = n then some p else acc) none

/-- `adjacencyList.get(name).bigs`, defaulting to `[]` for unknown names. -/
def bigsOf (people : People) (n : String) : List String :=
  ((personFor people n).map Person.bigs).getD []

/-- `adjacencyList.get(name).littles`, defaulting to `[]` for unknown names. -/
def littlesOf (people : People) (n : String) : List String :=
  ((personFor people n).map Person.littles).getD []

/-- The declared family list of a name (empty for unknown names). -/
def famOf (people : People) (n : String) : List String :=
  ((personFor people n).map Person.families).getD []

/-- `families[0] || null`, then `node.family || 'default'`: the primary
cluster key, where a missing or empty first entry falls back to "default". -/
def primaryKey (people : People) (n : String) : String :=
  match (famOf people n).head? with
  | some f => if f = "" then "default" else f
  | none => "default"

/-- JavaScript `Set.add`: append if new, keeping first-insertion order. -/
def addIfNew (acc : List String) (x : String) : List String :=
  if x ∈ acc then acc else acc ++ [x]

/-- The `allPeople` set: every record's name, first occurrence first. -/
def namesOf (people : People) : List String :=
  people.foldl (fun acc p => addIfNew acc p.name) []

/-- `Math.max(...values)` over a list collected first; on the empty list the
JavaScript value would be `-Infinity`, and the call sites below either rule
the empty list out or wrap the result in `Option`.  For the depth recursion
the list is nonempty, so the `0` seed is inert. -/
def maxList (l : List Nat) : Nat := l.foldl max 0

/-! ### Depth assignment (`calculateDepth`, src lines 405–416)

The JavaScript recursion shares one mutable `visited` set across an entire
top-level call and across sibling branches; a revisited name returns the
*current* recursion depth.  `depthGo` makes the state explicit: it processes a
worklist `ns` of names at depth `d`, threading `vis`, and returns the list of
branch values (whose `maxList` the caller takes) together with the final
visited list.  Fuel decreases on every call; `none` is fuel exhaustion. -/

def depthGo (people : People) : Nat → List String → List String → Nat →
    Option (List Nat × List String)
  | 0, _, _, _ => none
  | _ + 1, vis, [], _ => some ([], vis)
  | fuel + 1, vis, n :: ns, d =>
    if n ∈ vis then
      match depthGo people fuel vis ns d with
      | none => none
      | some (rest, vis') => some (d :: rest, vis')
    else
      let vis1 := n :: vis
      let bs := bigsOf people n
      if bs.isEmpty then
        match depthGo people fuel vis1 ns d with
        | none => none
        | some (rest, vis') => some (d :: rest, vis')
      else
        match depthGo people fuel vis1 bs (d + 1) with
        | none => none
        | some (vals, vis2) =>
          match depthGo people fuel vis2 ns d with
          | none => none
          | some (rest, vis3) => some (maxList vals :: rest, vis3)

/-- Every name the depth recursion can ever visit: all record names and all
names mentioned in a `bigs` list. -/
def depthUniv (people : People) : List String :=
  (people.flatMap (fun p => p.name :: p.bigs)).foldl addIfNew []

/-- Remaining work: one unit per unvisited universe name plus its bigs list. -/
def depthPotential (people : People) (vis : List String) : Nat :=
  (((depthUniv people).filter (fun x => decide (x ∉ vis))).map
    (fun x => (bigsOf people x).length + 1)).sum

/-- Canonical fuel for a one-name depth query. -/
def depthFuel (people : People) : Nat := depthPotential people [] + 2

/-- `node.depth`: the value `calculateDepth(name)` computes (`0` as a junk
default for the fuel-exhaustion case, which `depthGo_total` rules out). -/
def depthOf (people : People) (n : String) : Nat :=
  match depthGo people (depthFuel people) [] [n] 0 with
  | some (v :: _, _) => v
  | _ => 0

/-- The number of `bigs`-paths (of length ≤ fuel) from `x` to `a`, counting a
path once per position of a repeated entry in a `bigs` list.  Used to state
the "unique ancestor paths" hypothesis of the corrected depth claim. -/
def cnt (people : People) : Nat → String → String → Nat
  | 0, _, _ => 0
  | fuel + 1, x, a =>
    (if x = a then 1 else 0) + ((bigsOf people x).map (fun b => cnt people fuel b a)).sum

/-! ### Shortest-path search (`findPath`, src lines 1890–1982) -/

/-- The undirected relationship adjacency the path search builds: each
entity's connections are its littles followed by its bigs; unknown names have
no connections. -/
def pathAdj (people : People) (n : String) : List String :=
  ((personFor people n).map (fun p => p.littles ++ p.bigs)).getD []

/-- The `for (const neighbor of neighbors)` loop body: skip visited
neighbors, otherwise mark them visited and push the extended path on the back
of the queue. -/
def bfsEnqueue (path : List String) :
    List String → List (List String) → List String → List (List String) × List String
  | [], q, vis => (q, vis)
  | nb :: nbs, q, vis =>
    if nb ∈ vis then bfsEnqueue path nbs q vis
    else bfsEnqueue path nbs (q ++ [path ++ [nb]]) (nb :: vis)

/-- The `while (queue.length > 0)` BFS loop.  `some (some p)` = found path,
`some none` = queue exhausted ("no path"), `none` = out of fuel. -/
def bfsGo (people : People) (target : String) :
    Nat → List (List String) → List String → Option (Option (List String))
  | 0, _, _ => none
  | _ + 1, [], _ => some none
  | fuel + 1, path :: rest, vis =>
    let current := path.getLastD ""
    if current = target then some (some path)
    else
      let qv := bfsEnqueue path (pathAdj people current) rest vis
      bfsGo people target fuel qv.1 qv.2

/-- Every name the search can visit: the start plus every record name and
every name a littles/bigs list mentions. -/
def bfsUniv (people : People) (start : String) : List String :=
  (start :: people.flatMap (fun p => p.name :: (p.littles ++ p.bigs))).foldl addIfNew []

/-- Canonical fuel: the loop measure `2·(unvisited universe) + queue length`
starts below this and strictly decreases every iteration. -/
def bfsFuel (people : People) (start : String) : Nat :=
  2 * (bfsUniv people start).length + 2

/-- Outcome of `findPath`: a missing endpoint (the alert branches), a found
path, the "no path" popup, or fuel exhaustion (never reached). -/
inductive PathOutcome where
  | missing (who : String)
  | path (p : List String)
  | noPath
  | fuelOut
deriving DecidableEq, Repr

/-- `findPath(person1, person2)` after endpoint resolution: check both names
exist, then run the BFS. -/
def findPath (people : People) (p1 p2 : String) : PathOutcome :=
  if p1 ∉ people.map Person.name then .missing p1
  else if p2 ∉ people.map Person.name then .missing p2
  else
    match bfsGo people p2 (bfsFuel people p1) [[p1]] [p1] with
    | none => .fuelOut
    | some (some p) => .path p
    | some none => .noPath

/-! ### Links and cluster grouping (`calculateGraphLayout`, src lines 508–574) -/

/-- The flat edge list built from every record's littles. -/
def rawLinks (people : People) : List (String × String) :=
  people.flatMap (fun p => p.littles.map (fun l => (p.name, l)))

/-- `graphLinks`: edges whose two endpoint names resolve to records. -/
def graphLinks (people : People) : List (String × String) :=
  (rawLinks people).filter
    (fun st => (personFor people st.1).isSome && (personFor people st.2).isSome)

/-- The family keys, in first-occurrence order over the node list. -/
def familyKeysRaw (people : People) : List String :=
  (namesOf people).foldl (fun acc n => addIfNew acc (primaryKey people n)) []

/-- `familyToNodes.get(key)`: the nodes whose primary cluster is `key`. -/
def familyNodes (people : People) (key : String) : List String :=
  (namesOf people).filter (fun n => primaryKey people n == key)

/-- `familyToInternalTargets.get(key)`: targets of intra-cluster links. -/
def internalTargets (people : People) (key : String) : List String :=
  ((graphLinks people).filter
    (fun st => primaryKey people st.1 == key && primaryKey people st.2 == key)).map (·.2)

/-- `familyToChildren.get(key).get(src)` before sorting: intra-cluster link
targets out of `src`, in link order. -/
def childrenRaw (people : People) (key src : String) : List String :=
  ((graphLinks people).filter (fun st =>
    st.1 == src && primaryKey people st.1 == key && primaryKey people st.2 == key)).map (·.2)

/-- The same children list after the `kids.sort((a, b) => a.localeCompare(b))`
pass (modelled by the codepoint order on strings). -/
def childrenOf (people : People) (key src : String) : List String :=
  List.insertionSort (· ≤ ·) (childrenRaw people key src)

/-- `weightBetween`: the number of links whose endpoint clusters are `{a, b}`
with `a ≠ b`.  The JavaScript `familyCrossLinks` nested map records exactly
these counts symmetrically, absent entries standing for zero. -/
def crossW (people : People) (a b : String) : Nat :=
  (((graphLinks people).filter (fun st =>
    let k1 := primaryKey people st.1
    let k2 := primaryKey people st.2
    decide (k1 ≠ k2 ∧ ((k1 = a ∧ k2 = b) ∨ (k1 = b ∧ k2 = a))))).length)

/-! ### Cluster ordering (`orderFamiliesByConnectivity`, src lines 465–505)

`totalCrossWeight(k)` sums the values of the nested map for `k`; those values
are exactly `crossW k b` over the family keys `b` (absent pairs contribute
zero and `crossW k k = 0`), so the total is modelled as a sum over the key
list.  The `unplaced` set iterates in insertion order, and scores are
integers seeded with `-1`. -/

/-- The seed scan: `best = keys[0]` improved by strict `>`. -/
def seedOf (keys : List String) (total : String → Nat) : String :=
  keys.foldl (fun best cand => if total best < total cand then cand else best) (keys.headD "")

/-- The `unplaced.forEach` scan: strict improvement over a `-1` seed, so the
first maximal-score element in iteration order wins. -/
def pickBest (placed : List String) (w : String → String → Nat)
    (unplaced : List String) : Option String × Int :=
  unplaced.foldl (fun acc f =>
    let score : Int := ((placed.map (fun p => ((w f p : Int)))).sum)
    if acc.2 < score then (some f, score) else acc) (none, -1)

/-- The `while (unplaced.size > 0)` loop; `placed[0]`/`placed[last]` are the
chain ends and `leftWeight >= rightWeight` prepends.  The
`bestF === null` lexicographic fallback of the source is kept although the
`-1` seed makes it unreachable.  Fuel is the unplaced count. -/
def orderLoop (w : String → String → Nat) : Nat → List String → List String → List String
  | 0, placed, _ => placed
  | fuel + 1, placed, unplaced =>
    if unplaced.isEmpty then placed
    else
      let pick := pickBest placed w unplaced
      let bestF := match pick.1 with
        | some f => f
        | none => (List.insertionSort (· ≤ ·) unplaced).headD ""
      let unplaced' := unplaced.erase bestF
      let leftW := w bestF (placed.headD "")
      let rightW := w bestF (placed.getLastD "")
      let placed' := if rightW ≤ leftW then bestF :: placed else placed ++ [bestF]
      orderLoop w fuel placed' unplaced'

/-- `orderFamiliesByConnectivity(allFamilyKeys, familyCrossLinks)`. -/
def orderFamilies (keys : List String) (w : String → String → Nat) : List String :=
  if keys.length ≤ 1 then keys
  else
    let total := fun k => (keys.map (w k)).sum
    let seed := seedOf keys total
    let unplaced := (keys.foldl addIfNew []).erase seed
    orderLoop w (unplaced.length + 1) [seed] unplaced

/-! ### Intra-cluster subtree placement (`placeSubtree`, src lines 603–648) -/

/-- Rational-valued association map; assignment is modelled by prepending,
lookup by first match (`node.f = v` then reading `node.f`). -/
abbrev QA := List (String × ℚ)

def lookupA (m : QA) (k : String) : Option ℚ :=
  (m.find? (fun kv => kv.1 == k)).map (·.2)

/-- `node.estimatedWidth = measureNodeLabelWidth(node) + labelPadding`, the
label measurement `M` being the external width-estimation service. -/
def estW (M : String → ℚ) (n : String) : ℚ := M n + 60

/-- The mutable state of `placeSubtree`: the `unitX` assignments, the
`nextUnitX` counter and the `visiting` set (the `path` array only feeds the
console cycle warning and is not modelled). -/
structure PSt where
  unit : QA
  next : ℚ
  visiting : List String
deriving DecidableEq, Repr

/-- The two recursion shapes of `placeSubtree`: entering a node, and the
`for (const lid of littles)` loop over a pending littles list. -/
inductive PTask where
  | enter (n : String)
  | walk (pending : List String)
deriving DecidableEq, Repr

/-- `placeSubtree(node)` with explicit state.  In the leaf branch the
JavaScript adds the node to `visiting` and removes it again before
returning, so the net visiting set is unchanged.  The `kids.length = 0`
guard models the `0/0 = NaN` the JavaScript mean would produce (shown
unreachable later).  `none` is fuel exhaustion. -/
def placeStep (people : People) (key : String) :
    Nat → PTask → PSt → Option PSt
  | 0, _, _ => none
  | fuel + 1, .enter n, s =>
    if (lookupA s.unit n).isSome then some s
    else if n ∈ s.visiting then
      some { s with unit := (n, s.next) :: s.unit, next := s.next + 1 }
    else
      let littles := (childrenOf people key n).filter (fun id => (personFor people id).isSome)
      if littles.isEmpty then
        some { unit := (n, s.next) :: s.unit, next := s.next + 1, visiting := s.visiting }
      else
        match placeStep people key fuel (.walk littles) { s with visiting := n :: s.visiting } with
        | none => none
        | some s2 =>
          let kids := littles.filter (fun id => primaryKey people id == key)
          if kids.length = 0 then none
          else
            let vals := kids.map (fun id => (lookupA s2.unit id).getD 0)
            some { unit := (n, vals.sum / (kids.length : ℚ)) :: s2.unit,
                   next := s2.next, visiting := s2.visiting.erase n }
  | fuel + 1, .walk pending, s =>
    match pending with
    | [] => some s
    | lid :: rest =>
      if primaryKey people lid == key then
        if lid ∈ s.visiting then
          let s' := if (lookupA s.unit lid).isSome then s
            else { s with unit := (lid, s.next) :: s.unit, next := s.next + 1 }
          placeStep people key fuel (.walk rest) s'
        else
          match placeStep people key fuel (.enter lid) s with
          | none => none
          | some s2 => placeStep people key fuel (.walk rest) s2
      else placeStep people key fuel (.walk rest) s

/-- `for (const r of roots) { placeSubtree(r); nextUnitX += 1; }`. -/
def placeRoots (people : People) (key : String) (fuel : Nat) :
    List String → PSt → Option PSt
  | [], s => some s
  | r :: rs, s =>
    match placeStep people key fuel (.enter r) s with
    | none => none
    | some s' => placeRoots people key fuel rs { s' with next := s'.next + 1 }

/-- Work units one node can cost the placement recursion. -/
def placeCost (people : People) (n : String) : Nat :=
  2 * (childrenOf people (primaryKey people n) n).length + 2

/-- Canonical fuel for the placement recursion, over all clusters. -/
def placeFuel (people : People) : Nat :=
  ((namesOf people).map (placeCost people)).sum + 2

/-- Remaining placement work in a state: the cost of every node neither
assigned a unit position nor currently being visited. -/
def placeMu (people : People) (s : PSt) : Nat :=
  (((namesOf people).filter
    (fun n => decide ((lookupA s.unit n).isNone ∧ n ∉ s.visiting))).map
      (placeCost people)).sum

/-- Fuel budget a task needs beyond the state's remaining work. -/
def placeTaskCost : PTask → Nat
  | .enter _ => 0
  | .walk pending => 2 * pending.length

/-- Side conditions under which the placement recursion is invoked. -/
def placeTaskOK (people : People) (key : String) : PTask → Prop
  | .enter n => n ∈ namesOf people ∧ primaryKey people n = key
  | .walk pending => ∀ lid ∈ pending, (personFor people lid).isSome = true

/-- `roots` of a cluster: members nothing targets intra-cluster, sorted. -/
def rootsOf (people : People) (key : String) : List String :=
  List.insertionSort (· ≤ ·)
    ((familyNodes people key).filter (fun n => !(internalTargets people key).contains n))

/-- `littlesInFamily(node)`: resolved same-cluster littles. -/
def inFamKids (people : People) (key n : String) : List String :=
  (childrenOf people key n).filter
    (fun id => (personFor people id).isSome && primaryKey people id == key)

/-- `leaves`: cluster members with no intra-cluster littles. -/
def leavesOf (people : People) (key : String) : List String :=
  (familyNodes people key).filter (fun n => (inFamKids people key n).isEmpty)

/-! ### Leaf spacing, fallback, centering, spans (src lines 650–685) -/

/-- `Math.max(...l)` / `Math.min(...l)`: `none` models the `-Infinity` /
`Infinity` of an empty spread. -/
def qMaxL : List ℚ → Option ℚ
  | [] => none
  | x :: xs => some (xs.foldl max x)

def qMinL : List ℚ → Option ℚ
  | [] => none
  | x :: xs => some (xs.foldl min x)

/-- The leaf spacing chain: first leaf at `0`, each next at the previous
position plus half the two adjacent widths plus the minimum gap of `8`. -/
def leafGo (M : String → ℚ) : String → ℚ → List String → List (String × ℚ)
  | prev, pos, [] => [(prev, pos)]
  | prev, pos, c :: cs => (prev, pos) :: leafGo M c (pos + (estW M prev + estW M c) / 2 + 8) cs

def leafPositions (M : String → ℚ) : List String → List (String × ℚ)
  | [] => []
  | l0 :: rest => leafGo M l0 0 rest

/-- `leaves.sort((a, b) => a.unitX - b.unitX)`; a missing `unitX` is read as
`0` (the JavaScript comparator would return `NaN` there, leaving the order
implementation-defined, so the claims about this order assume every leaf was
assigned a unit position). -/
def sortLeaves (u : QA) (ls : List String) : List String :=
  List.insertionSort (fun a b => (lookupA u a).getD 0 ≤ (lookupA u b).getD 0) ls

/-- One cluster's pass: subtree placement from the roots, leaf spacing,
fallback positions from `unitX * defaultSpacing`, then the by-depth
parent-centering sweep; returns the updated unit and local maps and the
cluster's pixel span.  The `Number.isFinite(sum)` guard of the source is
always true over `ℚ`. -/
def familyPass (people : People) (M : String → ℚ) (key : String)
    (u0 l0 : QA) : Option (QA × QA × ℚ) :=
  let fam := familyNodes people key
  match placeRoots people key (placeFuel people) (rootsOf people key) ⟨u0, 0, []⟩ with
  | none => none
  | some s =>
    let leavesS := sortLeaves s.unit (leavesOf people key)
    let l1 := leafPositions M leavesS ++ l0
    if fam.length = 0 then none
    else
      let spacing := ((fam.map (fun n => let w := estW M n; if w = 0 then (80 : ℚ) else w)).sum)
        / (fam.length : ℚ) + 8
      let l2 := fam.foldl (fun loc n =>
        if (lookupA loc n).isSome then loc
        else (n, (lookupA s.unit n).getD 0 * spacing) :: loc) l1
      let byD := List.insertionSort (fun a b => depthOf people b ≤ depthOf people a) fam
      let l3 := byD.foldl (fun loc n =>
        let kids := inFamKids people key n
        if kids.length = 0 then loc
        else (n, (kids.map (fun c => (lookupA loc c).getD 0)).sum / (kids.length : ℚ)) :: loc) l2
      match qMaxL (fam.map (fun n => (lookupA l3 n).getD 0 + estW M n / 2)),
            qMinL (fam.map (fun n => (lookupA l3 n).getD 0 - estW M n / 2)) with
      | some mx, some mn => some (s.unit, l3, mx - mn)
      | _, _ => none

/-! ### Global composition (src lines 687–724) -/

/-- The cluster loop of the layout: threads the unit/local maps through every
cluster and collects the spans in cluster order. -/
def famFold (people : People) (M : String → ℚ) :
    List String → QA → QA → Option (QA × QA × QA)
  | [], u, l => some (u, l, [])
  | k :: ks, u, l =>
    match familyPass people M k u l with
    | none => none
    | some (u', l', w) =>
      match famFold people M ks u' l' with
      | none => none
      | some (u'', l'', ws) => some (u'', l'', (k, w) :: ws)

/-- `familyBaseX` before centering: running sum of spans plus the `80` gap. -/
def scanBase : QA → ℚ → QA
  | [], _ => []
  | (k, w) :: rest, c => (k, c) :: scanBase rest (c + w + 80)

/-- `familyCenterX`: base plus half span, per cluster in order. -/
def centersOf : QA → QA → QA
  | (k, b) :: bs, (_, w) :: ws => (k, b + w / 2) :: centersOf bs ws
  | _, _ => []

/-- One cluster's final coordinates: `x = baseX + localX - leftEdge`,
`y = height/4 + depth * 140`.  `none` models the `Math.min` of an empty
cluster. -/
def famCoords (people : People) (M : String → ℚ) (localM : QA) (canvasH : ℚ)
    (key : String) (base : ℚ) : Option (List (String × ℚ × ℚ)) :=
  let fam := familyNodes people key
  match qMinL (fam.map (fun n => (lookupA localM n).getD 0 - estW M n / 2)) with
  | none => none
  | some leftEdge => some (fam.map (fun n =>
      (n, base + (lookupA localM n).getD 0 - leftEdge,
        canvasH / 4 + (depthOf people n : ℚ) * 140)))

def coordsAll (people : People) (M : String → ℚ) (localM : QA) (canvasH : ℚ) :
    QA → Option (List (String × ℚ × ℚ))
  | [] => some []
  | (k, b) :: rest =>
    match famCoords people M localM canvasH k b, coordsAll people M localM canvasH rest with
    | some c, some cs => some (c ++ cs)
    | _, _ => none

/-- The stable two-element sort of `node.familyOrderByPosition`: swap exactly
when the first center is strictly larger. -/
def pairSort (c : String → ℚ) : List String → List String
  | [a, b] => if c b < c a then [b, a] else [a, b]
  | l => l

/-- `familyOrderByPosition` for every node declaring two or more clusters:
its first two declared clusters ordered by cluster center (`?? 0`). -/
def famOrderOf (people : People) (centersA : QA) : List (String × List String) :=
  (namesOf people).filterMap (fun n =>
    let fs := famOf people n
    if 2 ≤ fs.length then
      some (n, pairSort (fun f => (lookupA centersA f).getD 0) (fs.take 2))
    else none)

/-- Everything a finished layout pass wrote. -/
structure LayoutOut where
  unitM : QA
  localM : QA
  keys : List String
  widthsA : QA
  baseA : QA
  centersA : QA
  coords : List (String × ℚ × ℚ)
  famOrder : List (String × List String)
deriving DecidableEq, Repr

/-- `calculateGraphLayout` end to end, for canvas size `canvasW × canvasH`
and label measurement `M`. -/
def layoutRun (people : People) (M : String → ℚ) (canvasW canvasH : ℚ) :
    Option LayoutOut :=
  let keys := orderFamilies (familyKeysRaw people) (crossW people)
  match famFold people M keys [] [] with
  | none => none
  | some (u, l, ws) =>
    let currentX := (ws.map (fun kw => kw.2 + 80)).sum
    let offset := canvasW / 2 - (currentX - 80) / 2
    let baseA := (scanBase ws 0).map (fun kb => (kb.1, kb.2 + offset))
    let centersA := centersOf baseA ws
    match coordsAll people M l canvasH baseA with
    | none => none
    | some cs =>
      some { unitM := u, localM := l, keys := keys, widthsA := ws, baseA := baseA,
             centersA := centersA, coords := cs, famOrder := famOrderOf people centersA }

/-- A path in the relationship graph: consecutive entries are neighbors
(each entity's neighbors being the union of its bigs and littles, in the
direction recorded on the earlier entry). -/
def chainB (adj : String → List String) : List String → Bool
  | [] => true
  | [_] => true
  | a :: b :: rest => (adj a).contains b && chainB adj (b :: rest)

/-- `p` is a path from `s` to `t` in the relationship graph. -/
def isPathB (adj : String → List String) (s t : String) (p : List String) : Bool :=
  p.head? == some s && p.getLast? == some t && chainB adj p

/-- The breadth-first-search loop invariant: queue paths are valid paths
from the source with visited endpoints, queue lengths are sorted within a
window of one, the source is visited, every visited name has a queue
representative or only visited neighbors, queue paths are shortest to their
endpoints, and a visited target still has a representative. -/
def bfsInv (people : People) (p1 target : String)
    (queue : List (List String)) (vis : List String) : Prop :=
  (∀ p ∈ queue, (p.head? = some p1 ∧ chainB (pathAdj people) p = true) ∧
    p.getLastD "" ∈ vis) ∧
  List.Pairwise (fun a b : List String => a.length ≤ b.length ∧ b.length ≤ a.length + 1)
    queue ∧
  p1 ∈ vis ∧
  (∀ z ∈ vis, (∃ r ∈ queue, r.getLastD "" = z) ∨ (∀ nb ∈ pathAdj people z, nb ∈ vis)) ∧
  (∀ p ∈ queue, ∀ q, isPathB (pathAdj people) p1 (p.getLastD "") q = true →
    p.length ≤ q.length) ∧
  (target ∉ vis ∨ ∃ r ∈ queue, r.getLastD "" = target)

/-! ### Spec-side definitions

These follow the specification's words rather than the source, for the
refinement-style claims that compare the two. -/

/-- First element of `l` attaining the maximal score: "ties broken by input
order". -/
def argmaxFirst (score : String → Nat) (l : List String) : Option String :=
  l.find? (fun x => score x == (l.map score).foldr max 0)

/-- Lexicographically least element of `l` attaining the maximal score:
"ties broken lexicographically by cluster name". -/
def argmaxLex (score : String → Nat) (l : List String) : Option String :=
  (List.insertionSort (· ≤ ·)
    (l.filter (fun x => score x == (l.map score).foldr max 0))).head?

/-- Modelled from the spec: insert the picked cluster "at whichever end of
the current chain (leftmost or rightmost placed cluster) it is more strongly
connected to; ties favor the left end". -/
def specInsert (w : String → String → Nat) (placed : List String) (c : String) :
    List String :=
  if w c (placed.getLastD "") ≤ w c (placed.headD "") then c :: placed
  else placed ++ [c]

/-- Modelled from the spec (§4.3 step 2, lexicographic ties): repeatedly pick
the unplaced cluster with the highest total weight to the placed ones. -/
def specLoopLex (w : String → String → Nat) : Nat → List String → List String → List String
  | 0, placed, _ => placed
  | fuel + 1, placed, unplaced =>
    match argmaxLex (fun f => (placed.map (w f)).sum) unplaced with
    | none => placed
    | some c => specLoopLex w fuel (specInsert w placed c) (unplaced.erase c)

/-- Modelled from the spec as the claim states it: seed with the largest
total cross-cluster weight (input-order ties), then the greedy chain with
lexicographic ties. -/
def specOrderLex (keys : List String) (w : String → String → Nat) : List String :=
  let uniq := keys.foldl addIfNew []
  match argmaxFirst (fun k => (uniq.map (w k)).sum) keys with
  | none => []
  | some seed => specLoopLex w uniq.length [seed] (uniq.erase seed)

/-- The greedy chain with input-order ties (the corrected reading). -/
def specLoopInput (w : String → String → Nat) : Nat → List String → List String → List String
  | 0, placed, _ => placed
  | fuel + 1, placed, unplaced =>
    match argmaxFirst (fun f => (placed.map (w f)).sum) unplaced with
    | none => placed
    | some c => specLoopInput w fuel (specInsert w placed c) (unplaced.erase c)

/-- The corrected greedy chain construction: like the claim's, with the
pick ties broken by input order (first appearance) instead of
lexicographically. -/
def specOrderInput (keys : List String) (w : String → String → Nat) : List String :=
  let uniq := keys.foldl addIfNew []
  match argmaxFirst (fun k => (uniq.map (w k)).sum) keys with
  | none => []
  | some seed => specLoopInput w uniq.length [seed] (uniq.erase seed)

/-- A ranking certificate for acyclicity of the bigs relation: every bigs
edge strictly decreases the rank, so no bigs-chain can return to its start. -/
def rankedB (people : People) (rank : String → Nat) : Bool :=
  (depthUniv people).all (fun x => (bigsOf people x).all (fun b => rank b < rank x))

/-- The analogous certificate for acyclicity of the littles relation: every
littles edge strictly decreases the rank. -/
def littlesRankedB (people : People) (rank : String → Nat) : Bool :=
  (namesOf people).all (fun x => (littlesOf people x).all (fun l => rank l < rank x))

/-- Bounded unique-ancestor-paths condition: from any entity, no name is
reached by two distinct bigs-paths (counted within the canonical fuel, which
exceeds every simple path length of the input). -/
def uniquePathsB (people : People) : Bool :=
  (namesOf people).all (fun e =>
    (depthUniv people).all (fun a => cnt people (depthFuel people + 1) e a ≤ 1))

/-- Every declared big resolves to an existing record. -/
def resolvesB (people : People) : Bool :=
  people.all (fun p => p.bigs.all (fun b => (personFor people b).isSome))

/-- Modelled from the spec: the pure depth recursion
`depth(e) = 0 if e has no bigs, else 1 + max(depth(b) for b in bigs(e))`,
with fuel (stable once the fuel exceeds a rank certificate). -/
def depthPure (people : People) : Nat → String → Nat
  | 0, _ => 0
  | fuel + 1, n =>
    if (bigsOf people n).isEmpty then 0
    else 1 + maxList ((bigsOf people n).map (depthPure people fuel))

/-- Left edge of a cluster's composited block. -/
def blockLeft (out : LayoutOut) (f : String) : ℚ := (lookupA out.baseA f).getD 0

/-- Right edge of a cluster's composited block. -/
def blockRight (out : LayoutOut) (f : String) : ℚ :=
  (lookupA out.baseA f).getD 0 + (lookupA out.widthsA f).getD 0

/-! ### Concrete inputs used by counterexamples and witnesses -/

/-- The spec's shortest-path example: edges Alice→Bob, Bob→Carol,
Alice→Dave, Dave→Carol. -/
def exBfs : People := [
  ⟨"Alice", ["Bob", "Dave"], [], []⟩,
  ⟨"Bob", ["Carol"], ["Alice"], []⟩,
  ⟨"Carol", [], ["Bob", "Dave"], []⟩,
  ⟨"Dave", ["Carol"], ["Alice"], []⟩]

/-- An acyclic, fully resolving input where `e`'s ancestry reaches `x` twice
(directly and through `b2`): the shared visited set truncates the second
branch, so `depth(e) = 2` while `depth(b2) = 2`. -/
def exDepth : People := [
  ⟨"e", [], ["x", "b2"], []⟩,
  ⟨"b2", [], ["x"], []⟩,
  ⟨"x", [], ["c4"], []⟩,
  ⟨"c4", [], [], []⟩]

/-- A rank certificate for `exDepth`. -/
def rankDepth : String → Nat :=
  fun n => if n = "e" then 3 else if n = "b2" then 2 else if n = "x" then 1 else 0

/-- The diamond of `exDepth` inside one cluster with littles edges
`b2 → e → L, L2`: the littles relation is acyclic, yet the shared visited
set of the depth recursion gives `b2` and its little `e` the same computed
depth. -/
def exDiamond : People := [
  ⟨"b2", ["e"], ["x"], ["f"]⟩,
  ⟨"e", ["L", "L2"], ["x", "b2"], ["f"]⟩,
  ⟨"x", [], ["c4"], ["f"]⟩,
  ⟨"c4", [], [], ["f"]⟩,
  ⟨"L", [], ["e"], ["f"]⟩,
  ⟨"L2", [], ["e"], ["f"]⟩]

/-- A non-negative width measurement that breaks the symmetry of
`exDiamond`. -/
def mDiamond : String → ℚ := fun n => if n = "L" then 40 else 0

/-- A rank certificate for the littles relation of `exDiamond`. -/
def rankDiamond : String → Nat :=
  fun n => if n = "b2" then 2 else if n = "e" then 1 else 0

/-- An entity whose single declared big does not resolve. -/
def exGhost : People := [⟨"e", [], ["ghost"], []⟩]

/-- Three clusters, input order `s, b, a`, with one link between `s` and
each of `b` and `a` and none between `b` and `a`: the pick after the seed is
tied between `b` and `a`. -/
def wTie : String → String → Nat :=
  fun x y => if (x, y) ∈ [("s", "b"), ("b", "s"), ("s", "a"), ("a", "s")] then 1 else 0

/-- One cluster containing a littles-cycle `p ↔ c` under a chain
`d2 → d1 → c`, and a leaf `l` under `p`: the cycle gives `c` a smaller
computed depth than its big `p`, so the centering sweep reads `c` before it
is final. -/
def exCycle : People := [
  ⟨"p", ["c", "l"], ["c"], ["f"]⟩,
  ⟨"c", ["p"], ["p", "d1"], ["f"]⟩,
  ⟨"d1", ["c"], ["d2"], ["f"]⟩,
  ⟨"d2", ["d1"], [], ["f"]⟩,
  ⟨"l", [], ["p"], ["f"]⟩]

/-- Width-measurement stub for the concrete examples. -/
def mZero : String → ℚ := fun _ => 0

/-- A one-cluster chain `r → u, r → v`: two leaves, no cycles. -/
def exTwoLeaves : People := [
  ⟨"r", ["u", "v"], [], ["f"]⟩,
  ⟨"u", [], ["r"], ["f"]⟩,
  ⟨"v", [], ["r"], ["f"]⟩]

/-- Two clusters with a dual-cluster node. -/
def exDual : People := [
  ⟨"a1", [], [], ["fa", "fb"]⟩,
  ⟨"b1", [], [], ["fb"]⟩]

/-- A single entity, for the trivial-path witness. -/
def exSingle : People := [⟨"a", [], [], []⟩]

/-- Record set realizing the tie weights `wTie`: clusters appear in input
order `s, b, a`, with one cross-cluster link `s–b` and one `s–a`. -/
def exOrd : People := [
  ⟨"s1", ["b1"], [], ["s"]⟩,
  ⟨"s2", ["a1"], [], ["s"]⟩,
  ⟨"b1", [], ["s1"], ["b"]⟩,
  ⟨"a1", [], ["s2"], ["a"]⟩]

/-- An acyclic input with unique ancestor paths: `e` has two unrelated bigs,
one of which has its own big. -/
def exChain : People := [
  ⟨"e", [], ["b1", "b2"], []⟩,
  ⟨"b1", [], ["h"], []⟩,
  ⟨"b2", [], [], []⟩,
  ⟨"h", [], [], []⟩]

/-- A rank certificate for `exChain`. -/
def rankChain : String → Nat :=
  fun n => if n = "e" then 2 else if n = "b1" then 1 else 0

/-- Final local position of a node after a full layout pass. -/
def layoutLocal (people : People) (M : String → ℚ) (cw ch : ℚ) (n : String) : Option ℚ :=
  (layoutRun people M cw ch).bind (fun out => lookupA out.localM n)

/-- Mean of the final local positions of a node's intra-cluster littles. -/
def layoutKidsMean (people : People) (M : String → ℚ) (cw ch : ℚ) (n : String) : Option ℚ :=
  (layoutRun people M cw ch).bind (fun out =>
    let kids := inFamKids people (primaryKey people n) n
    if kids.length = 0 then none
    else some ((kids.map (fun c => (lookupA out.localM c).getD 0)).sum / (kids.length : ℚ)))

/-! ## Basic lemmas -/

theorem mem_foldl_addIfNew (l : List String) :
    ∀ (acc : List String) (x : String), x ∈ l.foldl addIfNew acc ↔ x ∈ acc ∨ x ∈ l := by
  induction l with
  | nil => simp
  | cons a l ih =>
    intro acc x
    simp only [List.foldl_cons, ih, addIfNew]
    by_cases hax : a ∈ acc
    · rw [if_pos hax]
      constructor
      · rintro (h | h)
        · exact Or.inl h
        · exact Or.inr (List.mem_cons_of_mem _ h)
      · rintro (h | h)
        · exact Or.inl h
        · rcases List.mem_cons.1 h with rfl | h
          · exact Or.inl hax
          · exact Or.inr h
    · rw [if_neg hax]
      simp only [List.mem_append, List.mem_singleton, List.mem_cons]
      tauto

theorem nodup_foldl_addIfNew (l : List String) :
    ∀ acc : List String, acc.Nodup → (l.foldl addIfNew acc).Nodup := by
  induction l with
  | nil => intro acc h; simpa using h
  | cons a l ih =>
    intro acc h
    simp only [List.foldl_cons]
    apply ih
    unfold addIfNew
    by_cases hax : a ∈ acc
    · rwa [if_pos hax]
    · rw [if_neg hax]
      simpa [List.nodup_append] using ⟨h, hax⟩

theorem namesOf_eq_foldl (people : People) :
    namesOf people = (people.map Person.name).foldl addIfNew [] := by
  unfold namesOf
  rw [List.foldl_map]

theorem namesOf_nodup (people : People) : (namesOf people).Nodup := by
  rw [namesOf_eq_foldl]
  exact nodup_foldl_addIfNew _ _ List.nodup_nil

theorem mem_namesOf {people : People} {x : String} :
    x ∈ namesOf people ↔ x ∈ people.map Person.name := by
  rw [namesOf_eq_foldl, mem_foldl_addIfNew]
  simp

theorem personFor_isSome_iff {people : People} {x : String} :
    (personFor people x).isSome ↔ x ∈ people.map Person.name := by
  unfold personFor
  induction people using List.reverseRecOn with
  | nil => simp
  | append_singleton l p ih =>
    rw [List.foldl_append]
    simp only [List.foldl_cons, List.foldl_nil, List.map_append, List.map_cons,
      List.map_nil, List.mem_append, List.mem_singleton]
    by_cases hp : p.name = x
    · simp [hp]
    · rw [if_neg hp, ih]
      constructor
      · exact Or.inl
      · rintro (h | h)
        · exact h
        · exact absurd h.symm hp

theorem mem_depthUniv {people : People} {x : String} :
    x ∈ depthUniv people ↔ x ∈ people.flatMap (fun p => p.name :: p.bigs) := by
  unfold depthUniv
  rw [mem_foldl_addIfNew]
  simp

theorem depthUniv_nodup (people : People) : (depthUniv people).Nodup :=
  nodup_foldl_addIfNew _ _ List.nodup_nil

theorem name_mem_depthUniv {people : People} {x : String}
    (h : x ∈ people.map Person.name) : x ∈ depthUniv people := by
  rw [mem_depthUniv]
  rcases List.mem_map.1 h with ⟨p, hp, rfl⟩
  exact List.mem_flatMap.2 ⟨p, hp, List.mem_cons_self _ _⟩

theorem personFor_mem {people : People} {n : String} {p : Person}
    (hpf : personFor people n = some p) : p ∈ people ∧ p.name = n := by
  unfold personFor at hpf
  induction people using List.reverseRecOn with
  | nil => simp at hpf
  | append_singleton l q ih =>
    rw [List.foldl_append] at hpf
    simp only [List.foldl_cons, List.foldl_nil] at hpf
    by_cases hq : q.name = n
    · rw [if_pos hq] at hpf
      cases hpf
      exact ⟨List.mem_append_right _ (List.mem_singleton.2 rfl), hq⟩
    · rw [if_neg hq] at hpf
      obtain ⟨hm, he⟩ := ih hpf
      exact ⟨List.mem_append_left _ hm, he⟩

theorem bigs_mem_depthUniv {people : People} {n b : String}
    (hb : b ∈ bigsOf people n) : b ∈ depthUniv people := by
  rw [mem_depthUniv]
  unfold bigsOf at hb
  cases hpf : personFor people n with
  | none => rw [hpf] at hb; simp at hb
  | some p =>
    rw [hpf] at hb
    simp at hb
    exact List.mem_flatMap.2 ⟨p, (personFor_mem hpf).1, List.mem_cons_of_mem _ hb⟩

theorem maxList_nil : maxList [] = 0 := rfl

theorem foldl_max_eq (l : List Nat) : ∀ a : Nat, l.foldl max a = max a (l.foldl max 0) := by
  induction l with
  | nil => simp [List.foldl_nil]
  | cons x l ih =>
    intro a
    simp only [List.foldl_cons]
    rw [ih (max a x), ih (max 0 x)]
    simp [Nat.max_assoc, Nat.zero_max]

theorem maxList_cons (a : Nat) (l : List Nat) : maxList (a :: l) = max a (maxList l) := by
  unfold maxList
  simp only [List.foldl_cons, Nat.zero_max]
  exact foldl_max_eq l a

theorem le_maxList {l : List Nat} {x : Nat} (h : x ∈ l) : x ≤ maxList l := by
  induction l with
  | nil => simp at h
  | cons a l ih =>
    rw [maxList_cons]
    rcases List.mem_cons.1 h with rfl | h
    · exact Nat.le_max_left _ _
    · exact Nat.le_trans (ih h) (Nat.le_max_right _ _)

theorem maxList_attained {l : List Nat} (h : l ≠ []) : maxList l ∈ l := by
  induction l with
  | nil => exact absurd rfl h
  | cons a l ih =>
    rw [maxList_cons]
    rcases List.eq_nil_or_concat l with rfl | _
    · simp [maxList]
    · by_cases hl : l = []
      · subst hl; simp [maxList]
      · rcases max_choice a (maxList l) with hm | hm
        · rw [hm]; exact List.mem_cons_self _ _
        · rw [hm]; exact List.mem_cons_of_mem _ (ih hl)

/-! ## Depth recursion: basic lemmas and totality -/

theorem depthGo_vis_sub (people : People) : ∀ fuel ns vis d vals vis',
    depthGo people fuel vis ns d = some (vals, vis') → vis ⊆ vis' := by
  intro fuel
  induction fuel with
  | zero => intro ns vis d vals vis' h; simp [depthGo] at h
  | succ f ih =>
    intro ns vis d vals vis' h
    cases ns with
    | nil =>
      simp only [depthGo] at h
      obtain ⟨-, rfl⟩ := Prod.mk.injEq .. ▸ Option.some.injEq .. ▸ h
      exact fun x hx => hx
    | cons n ns =>
      simp only [depthGo] at h
      by_cases hv : n ∈ vis
      · rw [if_pos hv] at h
        cases hrec : depthGo people f vis ns d with
        | none => rw [hrec] at h; cases h
        | some pr =>
          rw [hrec] at h
          obtain ⟨rest, v2⟩ := pr
          simp only [Option.some.injEq, Prod.mk.injEq] at h
          exact h.2 ▸ ih ns vis d rest v2 hrec
      · rw [if_neg hv] at h
        by_cases hbs : (bigsOf people n).isEmpty
        · rw [if_pos hbs] at h
          cases hrec : depthGo people f (n :: vis) ns d with
          | none => rw [hrec] at h; cases h
          | some pr =>
            rw [hrec] at h
            obtain ⟨rest, v2⟩ := pr
            simp only [Option.some.injEq, Prod.mk.injEq] at h
            refine h.2 ▸ fun x hx => ih ns (n :: vis) d rest v2 hrec ?_
            exact List.mem_cons_of_mem _ hx
        · rw [if_neg hbs] at h
          cases hrec : depthGo people f (n :: vis) (bigsOf people n) (d + 1) with
          | none => rw [hrec] at h; cases h
          | some pr =>
            obtain ⟨vals2, v2⟩ := pr
            rw [hrec] at h
            dsimp only at h
            cases hrec2 : depthGo people f v2 ns d with
            | none => rw [hrec2] at h; cases h
            | some pr2 =>
              obtain ⟨rest, v3⟩ := pr2
              rw [hrec2] at h
              simp only [Option.some.injEq, Prod.mk.injEq] at h
              refine h.2 ▸ fun x hx => ih ns v2 d rest v3 hrec2 ?_
              exact ih (bigsOf people n) (n :: vis) (d + 1) vals2 v2 hrec
                (List.mem_cons_of_mem _ hx)

theorem depthPotential_eq (people : People) (vis : List String) :
    depthPotential people vis =
      (((depthUniv people).filter (fun x => decide (x ∉ vis))).map
        (fun x => (bigsOf people x).length + 1)).sum := rfl

theorem depthPotential_mono (people : People) {v1 v2 : List String} (h : v1 ⊆ v2) :
    depthPotential people v2 ≤ depthPotential people v1 := by
  unfold depthPotential
  refine List.Sublist.sum_le_sum (List.Sublist.map _ ?_) (by simp)
  refine List.monotone_filter_right _ ?_
  intro a ha
  simp only [decide_eq_true_eq] at ha ⊢
  exact fun hm => ha (h hm)

theorem depthPotential_insert (people : People) {vis : List String} {n : String}
    (hn : n ∈ depthUniv people) (hnv : n ∉ vis) :
    depthPotential people (n :: vis) + ((bigsOf people n).length + 1) ≤
      depthPotential people vis := by
  unfold depthPotential
  have hnd := depthUniv_nodup people
  revert hn hnd
  generalize depthUniv people = l
  intro hn hnd
  induction l with
  | nil => simp at hn
  | cons x l ih =>
    have hnd' := (List.nodup_cons.1 hnd).2
    rcases List.mem_cons.1 hn with he | hxl
    · have e1 : (x :: l).filter (fun y => decide (y ∉ n :: vis)) =
          l.filter (fun y => decide (y ∉ n :: vis)) := by
        simp [List.filter_cons, he]
      have e2 : (x :: l).filter (fun y => decide (y ∉ vis)) =
          x :: l.filter (fun y => decide (y ∉ vis)) := by
        simp [List.filter_cons, show x ∉ vis from he ▸ hnv]
      have e3 : (l.filter fun y => decide (y ∉ n :: vis)) =
          l.filter fun y => decide (y ∉ vis) := by
        apply List.filter_congr
        intro y hy
        have hyn : y ≠ n := fun he2 => (List.nodup_cons.1 hnd).1 (he ▸ he2 ▸ hy)
        simp [List.mem_cons, hyn]
      rw [e1, e2, e3, he]
      simp only [List.map_cons, List.sum_cons]
      omega
    · have hxn : x ≠ n := fun he => (List.nodup_cons.1 hnd).1 (he ▸ hxl)
      have hih := ih hxl hnd'
      by_cases hx : x ∈ vis
      · have e1 : (x :: l).filter (fun y => decide (y ∉ n :: vis)) =
            l.filter (fun y => decide (y ∉ n :: vis)) := by
          simp [List.filter_cons, hx]
        have e2 : (x :: l).filter (fun y => decide (y ∉ vis)) =
            l.filter (fun y => decide (y ∉ vis)) := by
          simp [List.filter_cons, hx]
        rw [e1, e2]
        exact hih
      · have e1 : (x :: l).filter (fun y => decide (y ∉ n :: vis)) =
            x :: l.filter (fun y => decide (y ∉ n :: vis)) := by
          simp [List.filter_cons, hx, hxn]
        have e2 : (x :: l).filter (fun y => decide (y ∉ vis)) =
            x :: l.filter (fun y => decide (y ∉ vis)) := by
          simp [List.filter_cons, hx]
        rw [e1, e2]
        simp only [List.map_cons, List.sum_cons]
        omega

theorem depthGo_total (people : People) : ∀ fuel ns vis d,
    (∀ n ∈ ns, n ∈ depthUniv people) →
    ns.length + depthPotential people vis < fuel →
    (depthGo people fuel vis ns d).isSome := by
  intro fuel
  induction fuel with
  | zero => intro ns vis d _ h; omega
  | succ f ih =>
    intro ns vis d hmem h
    cases ns with
    | nil => simp [depthGo]
    | cons n ns =>
      simp only [depthGo]
      by_cases hv : n ∈ vis
      · rw [if_pos hv]
        have := ih ns vis d (fun m hm => hmem m (List.mem_cons_of_mem _ hm))
          (by simp at h ⊢; omega)
        cases hrec : depthGo people f vis ns d with
        | none => rw [hrec] at this; simp at this
        | some pr => simp
      · rw [if_neg hv]
        have hnu : n ∈ depthUniv people := hmem n (List.mem_cons_self _ _)
        have hins := depthPotential_insert people hnu hv
        by_cases hbs : (bigsOf people n).isEmpty
        · rw [if_pos hbs]
          have hpot := depthPotential_mono people (List.subset_cons_self n vis)
          have := ih ns (n :: vis) d (fun m hm => hmem m (List.mem_cons_of_mem _ hm))
            (by simp at h ⊢; omega)
          cases hrec : depthGo people f (n :: vis) ns d with
          | none => rw [hrec] at this; simp at this
          | some pr => simp
        · rw [if_neg hbs]
          have h1 : (bigsOf people n).length + depthPotential people (n :: vis) < f := by
            simp at h; omega
          have hbig := ih (bigsOf people n) (n :: vis) (d + 1)
            (fun m hm => bigs_mem_depthUniv hm) h1
          cases hrec : depthGo people f (n :: vis) (bigsOf people n) (d + 1) with
          | none => rw [hrec] at hbig; simp at hbig
          | some pr =>
            obtain ⟨vals2, v2⟩ := pr
            dsimp only
            have hsub : (n :: vis) ⊆ v2 := depthGo_vis_sub people f _ _ _ _ _ hrec
            have hpot2 : depthPotential people v2 ≤ depthPotential people vis :=
              le_trans (depthPotential_mono people hsub)
                (depthPotential_mono people (List.subset_cons_self n vis))
            have := ih ns v2 d (fun m hm => hmem m (List.mem_cons_of_mem _ hm))
              (by simp at h ⊢; omega)
            cases hrec2 : depthGo people f v2 ns d with
            | none => rw [hrec2] at this; simp at this
            | some pr2 => simp

theorem depthGo_length (people : People) : ∀ fuel ns vis d vals vis',
    depthGo people fuel vis ns d = some (vals, vis') → vals.length = ns.length := by
  intro fuel
  induction fuel with
  | zero => intro ns vis d vals vis' h; simp [depthGo] at h
  | succ f ih =>
    intro ns vis d vals vis' h
    cases ns with
    | nil =>
      simp only [depthGo, Option.some.injEq, Prod.mk.injEq] at h
      simp [← h.1]
    | cons n ns =>
      simp only [depthGo] at h
      by_cases hv : n ∈ vis
      · rw [if_pos hv] at h
        cases hrec : depthGo people f vis ns d with
        | none => rw [hrec] at h; cases h
        | some pr =>
          obtain ⟨rest, v2⟩ := pr
          rw [hrec] at h
          simp only [Option.some.injEq, Prod.mk.injEq] at h
          simp [← h.1, ih ns vis d rest v2 hrec]
      · rw [if_neg hv] at h
        by_cases hbs : (bigsOf people n).isEmpty
        · rw [if_pos hbs] at h
          cases hrec : depthGo people f (n :: vis) ns d with
          | none => rw [hrec] at h; cases h
          | some pr =>
            obtain ⟨rest, v2⟩ := pr
            rw [hrec] at h
            simp only [Option.some.injEq, Prod.mk.injEq] at h
            simp [← h.1, ih ns (n :: vis) d rest v2 hrec]
        · rw [if_neg hbs] at h
          cases hrec : depthGo people f (n :: vis) (bigsOf people n) (d + 1) with
          | none => rw [hrec] at h; cases h
          | some pr =>
            obtain ⟨vals2, v2⟩ := pr
            rw [hrec] at h
            dsimp only at h
            cases hrec2 : depthGo people f v2 ns d with
            | none => rw [hrec2] at h; cases h
            | some pr2 =>
              obtain ⟨rest, v3⟩ := pr2
              rw [hrec2] at h
              simp only [Option.some.injEq, Prod.mk.injEq] at h
              simp [← h.1, ih ns v2 d rest v3 hrec2]

theorem depthOf_total (people : People) (n : String) (hn : n ∈ namesOf people) :
    ∃ v vis', depthGo people (depthFuel people) [] [n] 0 = some ([v], vis') ∧
      depthOf people n = v := by
  have hmem : ∀ m ∈ [n], m ∈ depthUniv people := by
    intro m hm
    rw [List.mem_singleton] at hm
    subst hm
    exact name_mem_depthUniv (mem_namesOf.1 hn)
  have hlt : [n].length + depthPotential people [] < depthFuel people := by
    unfold depthFuel
    simp only [List.length_singleton]
    omega
  have := depthGo_total people (depthFuel people) [n] [] 0 hmem hlt
  cases hrec : depthGo people (depthFuel people) [] [n] 0 with
  | none => rw [hrec] at this; simp at this
  | some pr =>
    obtain ⟨vals, vis'⟩ := pr
    have hlen := depthGo_length people _ _ _ _ _ _ hrec
    cases vals with
    | nil => simp at hlen
    | cons v rest =>
      cases rest with
      | nil =>
        refine ⟨v, vis', rfl, ?_⟩
        unfold depthOf
        rw [hrec]
      | cons a b => simp at hlen

theorem depthGo_leafList (people : People) : ∀ bs fuel vis d,
    (∀ b ∈ bs, bigsOf people b = []) → bs.length < fuel →
    ∃ vis', depthGo people fuel vis bs d = some (bs.map (fun _ => d), vis') := by
  intro bs
  induction bs with
  | nil =>
    intro fuel vis d _ hf
    cases fuel with
    | zero => omega
    | succ f => exact ⟨vis, rfl⟩
  | cons b rest ih =>
    intro fuel vis d hb hf
    cases fuel with
    | zero => simp at hf
    | succ f =>
      simp only [depthGo]
      by_cases hv : b ∈ vis
      · rw [if_pos hv]
        obtain ⟨vis', hrec⟩ := ih f vis d (fun x hx => hb x (List.mem_cons_of_mem _ hx))
          (by simp at hf; omega)
        rw [hrec]
        exact ⟨vis', rfl⟩
      · rw [if_neg hv]
        have hbb : bigsOf people b = [] := hb b (List.mem_cons_self _ _)
        rw [hbb]
        simp only [List.isEmpty_nil, if_true]
        obtain ⟨vis', hrec⟩ := ih f (b :: vis) d (fun x hx => hb x (List.mem_cons_of_mem _ hx))
          (by simp at hf; omega)
        rw [hrec]
        exact ⟨vis', rfl⟩

theorem maxList_const (l : List String) (c : Nat) (h : l ≠ []) :
    maxList (l.map fun _ => c) = c := by
  induction l with
  | nil => exact absurd rfl h
  | cons a rest ih =>
    rw [List.map_cons, maxList_cons]
    by_cases hr : rest = []
    · subst hr
      simp [maxList]
    · rw [ih hr]
      exact Nat.max_self c

/-! ## Placement recursion: totality -/

theorem sum_filter_le (f : String → Nat) {p q : String → Bool} (l : List String)
    (h : ∀ x, p x = true → q x = true) :
    ((l.filter p).map f).sum ≤ ((l.filter q).map f).sum :=
  List.Sublist.sum_le_sum (List.Sublist.map f (List.monotone_filter_right l h)) (by simp)

theorem sum_filter_remove (f : String → Nat) {p q : String → Bool} {l : List String}
    {n : String} (hn : n ∈ l) (hnd : l.Nodup)
    (hpq : ∀ x, x ≠ n → p x = q x) (hpn : p n = false) (hqn : q n = true) :
    ((l.filter p).map f).sum + f n ≤ ((l.filter q).map f).sum := by
  induction l with
  | nil => simp at hn
  | cons x l ih =>
    have hnd' := (List.nodup_cons.1 hnd).2
    rcases List.mem_cons.1 hn with he | hxl
    · have e1 : (x :: l).filter p = l.filter p := by
        simp [List.filter_cons, ← he, hpn]
      have e2 : (x :: l).filter q = x :: l.filter q := by
        simp [List.filter_cons, ← he, hqn]
      have e3 : l.filter p = l.filter q := by
        apply List.filter_congr
        intro y hy
        exact hpq y (fun h2 => (List.nodup_cons.1 hnd).1 (he ▸ h2 ▸ hy))
      rw [e1, e2, e3, ← he]
      simp only [List.map_cons, List.sum_cons]
      omega
    · have hxn : x ≠ n := fun he2 => (List.nodup_cons.1 hnd).1 (he2 ▸ hxl)
      have hih := ih hxl hnd'
      have hpq' := hpq x hxn
      by_cases hx : q x = true
      · have e1 : (x :: l).filter p = x :: l.filter p := by
          simp [List.filter_cons, hpq' ▸ hx]
        have e2 : (x :: l).filter q = x :: l.filter q := by
          simp [List.filter_cons, hx]
        rw [e1, e2]
        simp only [List.map_cons, List.sum_cons]
        omega
      · have hxf : q x = false := by simpa using hx
        have e1 : (x :: l).filter p = l.filter p := by
          simp [List.filter_cons, hpq'.trans hxf]
        have e2 : (x :: l).filter q = l.filter q := by
          simp [List.filter_cons, hxf]
        rw [e1, e2]
        exact hih

theorem lookupA_cons (k : String) (v : ℚ) (u : QA) (m : String) :
    lookupA ((k, v) :: u) m = if k = m then some v else lookupA u m := by
  unfold lookupA
  by_cases h : k = m
  · subst h
    rw [if_pos rfl]
    rw [List.find?_cons_of_pos _ (by simp)]
    rfl
  · rw [if_neg h]
    rw [List.find?_cons_of_neg _ (by simpa using h)]

theorem childrenOf_mem (people : People) (key src : String) :
    ∀ id ∈ childrenOf people key src,
      (personFor people id).isSome = true ∧ primaryKey people id = key := by
  intro id hid
  unfold childrenOf at hid
  have hid' : id ∈ childrenRaw people key src :=
    (List.Perm.mem_iff (List.perm_insertionSort _ _)).1 hid
  unfold childrenRaw at hid'
  rcases List.mem_map.1 hid' with ⟨st, hst, rfl⟩
  have hf := List.of_mem_filter hst
  have hst2 : st ∈ graphLinks people := List.mem_of_mem_filter hst
  unfold graphLinks at hst2
  have hg := List.of_mem_filter hst2
  simp only [Bool.and_eq_true, beq_iff_eq] at hf hg
  exact ⟨hg.2, hf.2⟩

theorem littlesFilter_eq (people : People) (key n : String) :
    (childrenOf people key n).filter (fun id => (personFor people id).isSome) =
      childrenOf people key n :=
  List.filter_eq_self.mpr (fun id hid => (childrenOf_mem people key n id hid).1)

theorem kidsFilter_eq (people : People) (key n : String) :
    (childrenOf people key n).filter (fun id => primaryKey people id == key) =
      childrenOf people key n :=
  List.filter_eq_self.mpr (fun id hid => by
    simpa using (childrenOf_mem people key n id hid).2)

theorem placeMu_mono (people : People) {s1 s2 : PSt}
    (h : ∀ m, (lookupA s2.unit m).isNone = true ∧ m ∉ s2.visiting →
      (lookupA s1.unit m).isNone = true ∧ m ∉ s1.visiting) :
    placeMu people s2 ≤ placeMu people s1 := by
  unfold placeMu
  apply sum_filter_le
  intro x hx
  simp only [decide_eq_true_eq] at hx ⊢
  exact h x ⟨by simp [hx.1], hx.2⟩ |>.imp (fun a => by simpa using a) id

theorem placeMu_cons_le (people : People) (n : String) (v nx nx' : ℚ) (u : QA)
    (vis vis' : List String) (hvis : ∀ m, m ≠ n → m ∉ vis' → m ∉ vis) :
    placeMu people ⟨(n, v) :: u, nx', vis'⟩ ≤ placeMu people ⟨u, nx, vis⟩ := by
  apply placeMu_mono
  intro m hm
  obtain ⟨hm1, hm2⟩ := hm
  rw [lookupA_cons] at hm1
  by_cases hmn : n = m
  · rw [if_pos hmn] at hm1
    simp at hm1
  · rw [if_neg hmn] at hm1
    exact ⟨hm1, hvis m (fun he => hmn he.symm) hm2⟩

theorem placeMu_visiting_le (people : People) (s : PSt) (n : String) :
    placeMu people { s with visiting := n :: s.visiting } ≤ placeMu people s := by
  apply placeMu_mono
  intro m hm
  exact ⟨hm.1, fun hmv => hm.2 (List.mem_cons_of_mem _ hmv)⟩

theorem placeMu_enter_budget (people : People) (key : String) (s : PSt) (n : String)
    (hn : n ∈ namesOf people) (hkey : primaryKey people n = key)
    (ha : (lookupA s.unit n).isSome = false) (hv : n ∉ s.visiting) :
    placeMu people { s with visiting := n :: s.visiting } +
      (2 * (childrenOf people key n).length + 2) ≤ placeMu people s := by
  have hcost : placeCost people n = 2 * (childrenOf people key n).length + 2 := by
    unfold placeCost
    rw [hkey]
  rw [← hcost]
  unfold placeMu
  apply sum_filter_remove (placeCost people) hn (namesOf_nodup people)
  · intro x hx
    simp only [decide_eq_decide]
    constructor
    · rintro ⟨h1, h2⟩
      exact ⟨h1, fun hm => h2 (List.mem_cons_of_mem _ hm)⟩
    · rintro ⟨h1, h2⟩
      refine ⟨h1, fun hm => ?_⟩
      rcases List.mem_cons.1 hm with he | hm2
      · exact hx he
      · exact h2 hm2
  · simp
  · simp only [decide_eq_true_eq]
    exact ⟨Option.isNone_iff_eq_none.2 (Option.not_isSome_iff_eq_none.1 (by simp [ha])), hv⟩

theorem placeStep_total (people : People) (key : String) : ∀ fuel t s,
    placeTaskOK people key t →
    placeMu people s + placeTaskCost t < fuel →
    ∃ s', placeStep people key fuel t s = some s' ∧
      placeMu people s' ≤ placeMu people s := by
  intro fuel
  induction fuel with
  | zero => intro t s _ h; omega
  | succ f ih =>
    intro t s hok h
    cases t with
    | enter n =>
      obtain ⟨hn, hkey⟩ := hok
      simp only [placeStep]
      by_cases ha : (lookupA s.unit n).isSome = true
      · rw [if_pos ha]
        exact ⟨s, rfl, le_refl _⟩
      · rw [if_neg ha]
        by_cases hv : n ∈ s.visiting
        · rw [if_pos hv]
          refine ⟨_, rfl, ?_⟩
          exact placeMu_cons_le people n s.next s.next (s.next + 1) s.unit s.visiting s.visiting
            (fun m _ hm => hm)
        · rw [if_neg hv]
          rw [littlesFilter_eq]
          by_cases hemp : (childrenOf people key n).isEmpty = true
          · rw [if_pos hemp]
            refine ⟨_, rfl, ?_⟩
            exact placeMu_cons_le people n s.next s.next (s.next + 1) s.unit s.visiting s.visiting
              (fun m _ hm => hm)
          · rw [if_neg hemp]
            have hbudget := placeMu_enter_budget people key s n hn hkey
              (by simpa using ha) hv
            obtain ⟨s2, hs2, hmu2⟩ := ih (.walk (childrenOf people key n))
              { s with visiting := n :: s.visiting }
              (fun lid hl => (childrenOf_mem people key n lid hl).1)
              (by simp only [placeTaskCost]; omega)
            rw [hs2]
            dsimp only
            rw [kidsFilter_eq]
            have hkl : ¬ (childrenOf people key n).length = 0 := by
              intro h0
              rw [List.length_eq_zero] at h0
              rw [h0] at hemp
              simp at hemp
            rw [if_neg hkl]
            refine ⟨_, rfl, ?_⟩
            refine le_trans (placeMu_cons_le people n _ s2.next s2.next s2.unit
              s2.visiting (s2.visiting.erase n) ?_) ?_
            · intro m hmn hm hmv
              exact hm ((List.mem_erase_of_ne hmn).2 hmv)
            · exact le_trans hmu2 (placeMu_visiting_le people s n)
    | walk pending =>
      cases pending with
      | nil => exact ⟨s, by simp [placeStep], le_refl _⟩
      | cons lid rest =>
        have hok' : ∀ x ∈ rest, (personFor people x).isSome = true :=
          fun x hx => hok x (List.mem_cons_of_mem _ hx)
        have hcost : placeTaskCost (.walk rest) + 2 ≤ placeTaskCost (.walk (lid :: rest)) := by
          simp [placeTaskCost, List.length_cons]
          omega
        simp only [placeStep]
        by_cases hpk : (primaryKey people lid == key) = true
        · rw [if_pos hpk]
          by_cases hv : lid ∈ s.visiting
          · rw [if_pos hv]
            by_cases ha : (lookupA s.unit lid).isSome = true
            · rw [if_pos ha]
              obtain ⟨s', h2, hmu⟩ := ih (.walk rest) s hok' (by simp [placeTaskCost] at h ⊢; omega)
              exact ⟨s', h2, hmu⟩
            · rw [if_neg ha]
              have hmu1 : placeMu people
                  { s with unit := (lid, s.next) :: s.unit, next := s.next + 1 } ≤
                    placeMu people s :=
                placeMu_cons_le people lid s.next s.next (s.next + 1) s.unit s.visiting s.visiting
                  (fun m _ hm => hm)
              obtain ⟨s', h2, hmu⟩ := ih (.walk rest)
                { s with unit := (lid, s.next) :: s.unit, next := s.next + 1 } hok'
                (by simp [placeTaskCost] at h ⊢; omega)
              exact ⟨s', h2, le_trans hmu hmu1⟩
          · rw [if_neg hv]
            have henter : placeTaskOK people key (.enter lid) :=
              ⟨mem_namesOf.2 (personFor_isSome_iff.1 (hok lid (List.mem_cons_self _ _))),
                by simpa using hpk⟩
            obtain ⟨s2, h2, hmu2⟩ := ih (.enter lid) s henter
              (by simp [placeTaskCost] at h ⊢; omega)
            rw [h2]
            dsimp only
            obtain ⟨s3, h3, hmu3⟩ := ih (.walk rest) s2 hok'
              (by simp [placeTaskCost] at h ⊢; omega)
            exact ⟨s3, h3, le_trans hmu3 hmu2⟩
        · rw [if_neg hpk]
          obtain ⟨s', h2, hmu⟩ := ih (.walk rest) s hok' (by simp [placeTaskCost] at h ⊢; omega)
          exact ⟨s', h2, hmu⟩

theorem placeMu_le_total (people : People) (s : PSt) :
    placeMu people s ≤ ((namesOf people).map (placeCost people)).sum := by
  unfold placeMu
  exact List.Sublist.sum_le_sum
    (List.Sublist.map (placeCost people) (List.filter_sublist _)) (by simp)

theorem familyNodes_mem {people : People} {key n : String}
    (h : n ∈ familyNodes people key) :
    n ∈ namesOf people ∧ primaryKey people n = key := by
  unfold familyNodes at h
  exact ⟨List.mem_of_mem_filter h, by simpa using List.of_mem_filter h⟩

theorem rootsOf_mem {people : People} {key n : String} (h : n ∈ rootsOf people key) :
    n ∈ namesOf people ∧ primaryKey people n = key := by
  unfold rootsOf at h
  have h2 := (List.Perm.mem_iff (List.perm_insertionSort _ _)).1 h
  exact familyNodes_mem (List.mem_of_mem_filter h2)

theorem placeRoots_total (people : People) (key : String) : ∀ rs s,
    (∀ r ∈ rs, r ∈ namesOf people ∧ primaryKey people r = key) →
    placeMu people s < placeFuel people →
    ∃ s', placeRoots people key (placeFuel people) rs s = some s' := by
  intro rs
  induction rs with
  | nil => intro s _ _; exact ⟨s, rfl⟩
  | cons r rs ih =>
    intro s hr hf
    obtain ⟨s1, h1, hmu1⟩ := placeStep_total people key (placeFuel people) (.enter r) s
      (hr r (List.mem_cons_self _ _)) (by simp [placeTaskCost]; omega)
    obtain ⟨s2, h2⟩ := ih { s1 with next := s1.next + 1 }
      (fun x hx => hr x (List.mem_cons_of_mem _ hx))
      (lt_of_le_of_lt (le_trans (le_of_eq rfl) (le_trans hmu1 (le_of_eq rfl))) hf)
    refine ⟨s2, ?_⟩
    simp only [placeRoots]
    rw [h1]
    exact h2

theorem mem_familyKeysRaw {people : People} {key : String} :
    key ∈ familyKeysRaw people ↔ ∃ n ∈ namesOf people, primaryKey people n = key := by
  unfold familyKeysRaw
  have : (namesOf people).foldl (fun acc n => addIfNew acc (primaryKey people n)) [] =
      ((namesOf people).map (primaryKey people)).foldl addIfNew [] := by
    rw [List.foldl_map]
  rw [this, mem_foldl_addIfNew]
  simp

theorem familyNodes_ne_nil {people : People} {key : String}
    (h : key ∈ familyKeysRaw people) : familyNodes people key ≠ [] := by
  obtain ⟨n, hn, hk⟩ := mem_familyKeysRaw.1 h
  intro he
  have : n ∈ familyNodes people key := by
    unfold familyNodes
    exact List.mem_filter.2 ⟨hn, by simpa using hk⟩
  rw [he] at this
  simp at this

theorem qMaxL_isSome {l : List ℚ} (h : l ≠ []) : (qMaxL l).isSome = true := by
  cases l with
  | nil => exact absurd rfl h
  | cons x xs => rfl

theorem qMinL_isSome {l : List ℚ} (h : l ≠ []) : (qMinL l).isSome = true := by
  cases l with
  | nil => exact absurd rfl h
  | cons x xs => rfl

theorem qMaxL_eq_none {l : List ℚ} (h : qMaxL l = none) : l = [] := by
  cases l with
  | nil => rfl
  | cons x xs => simp [qMaxL] at h

theorem qMinL_eq_none {l : List ℚ} (h : qMinL l = none) : l = [] := by
  cases l with
  | nil => rfl
  | cons x xs => simp [qMinL] at h

theorem familyPass_total (people : People) (M : String → ℚ) (key : String)
    (hkey : key ∈ familyKeysRaw people) (u0 l0 : QA) :
    ∃ u' l' w, familyPass people M key u0 l0 = some (u', l', w) := by
  unfold familyPass
  obtain ⟨s, hs⟩ := placeRoots_total people key (rootsOf people key) ⟨u0, 0, []⟩
    (fun r hr => rootsOf_mem hr)
    (lt_of_le_of_lt (placeMu_le_total people _) (by unfold placeFuel; omega))
  rw [hs]
  dsimp only
  have hne := familyNodes_ne_nil hkey
  have hlen : ¬ (familyNodes people key).length = 0 := by
    intro h0
    exact hne (List.length_eq_zero.1 h0)
  rw [if_neg hlen]
  cases hmax : qMaxL ((familyNodes people key).map
      (fun n => (lookupA _ n).getD 0 + estW M n / 2)) with
  | none => exact absurd (List.map_eq_nil_iff.1 (qMaxL_eq_none hmax)) hne
  | some mx =>
    cases hmin : qMinL ((familyNodes people key).map
        (fun n => (lookupA _ n).getD 0 - estW M n / 2)) with
    | none => exact absurd (List.map_eq_nil_iff.1 (qMinL_eq_none hmin)) hne
    | some mn => exact ⟨_, _, _, rfl⟩

/-! ## Cluster ordering: membership and permutation -/

theorem foldl_pick_mem (total : String → Nat) :
    ∀ (l : List String) (b : String) (S : List String), b ∈ S → (∀ x ∈ l, x ∈ S) →
      l.foldl (fun best cand => if total best < total cand then cand else best) b ∈ S := by
  intro l
  induction l with
  | nil => intro b S hb _; exact hb
  | cons x l ih =>
    intro b S hb hl
    simp only [List.foldl_cons]
    by_cases hc : total b < total x
    · rw [if_pos hc]
      exact ih x S (hl x (List.mem_cons_self _ _)) (fun y hy => hl y (List.mem_cons_of_mem _ hy))
    · rw [if_neg hc]
      exact ih b S hb (fun y hy => hl y (List.mem_cons_of_mem _ hy))

theorem seedOf_mem (keys : List String) (total : String → Nat) (h : keys ≠ []) :
    seedOf keys total ∈ keys := by
  unfold seedOf
  cases keys with
  | nil => exact absurd rfl h
  | cons k ks =>
    exact foldl_pick_mem total (k :: ks) ((k :: ks).headD "") (k :: ks) (by simp)
      (fun x hx => hx)

theorem pickBest_mem (placed : List String) (w : String → String → Nat) :
    ∀ (l : List String) (acc : Option String × Int) (f : String),
      (l.foldl (fun acc f =>
        let score : Int := ((placed.map (fun p => ((w f p : Int)))).sum)
        if acc.2 < score then (some f, score) else acc) acc).1 = some f →
      acc.1 = some f ∨ f ∈ l := by
  intro l
  induction l with
  | nil => intro acc f h; exact Or.inl h
  | cons x l ih =>
    intro acc f h
    simp only [List.foldl_cons] at h
    by_cases hc : acc.2 < ((placed.map (fun p => ((w x p : Int)))).sum)
    · rw [if_pos hc] at h
      rcases ih _ f h with h2 | h2
      · simp at h2
        exact Or.inr (h2 ▸ List.mem_cons_self _ _)
      · exact Or.inr (List.mem_cons_of_mem _ h2)
    · rw [if_neg hc] at h
      rcases ih _ f h with h2 | h2
      · exact Or.inl h2
      · exact Or.inr (List.mem_cons_of_mem _ h2)

theorem bestF_mem (placed : List String) (w : String → String → Nat)
    (unplaced : List String) (h : unplaced ≠ []) :
    (match (pickBest placed w unplaced).1 with
      | some f => f
      | none => (List.insertionSort (· ≤ ·) unplaced).headD "") ∈ unplaced := by
  cases hp : (pickBest placed w unplaced).1 with
  | some f =>
    rcases pickBest_mem placed w unplaced (none, -1) f hp with h2 | h2
    · cases h2
    · exact h2
  | none =>
    have hs : List.insertionSort (· ≤ ·) unplaced ≠ [] := by
      intro he
      have hp := List.perm_insertionSort (· ≤ ·) unplaced
      rw [he] at hp
      exact h (List.Perm.eq_nil hp.symm)
    cases hsort : List.insertionSort (· ≤ ·) unplaced with
    | nil => exact absurd hsort hs
    | cons a l =>
      have : a ∈ List.insertionSort (· ≤ ·) unplaced := by
        rw [hsort]; exact List.mem_cons_self _ _
      simpa [hsort] using (List.Perm.mem_iff (List.perm_insertionSort _ _)).1 this

theorem orderLoop_perm (w : String → String → Nat) : ∀ fuel placed unplaced,
    unplaced.length < fuel →
    List.Perm (orderLoop w fuel placed unplaced) (placed ++ unplaced) := by
  intro fuel
  induction fuel with
  | zero => intro placed unplaced h; omega
  | succ f ih =>
    intro placed unplaced h
    simp only [orderLoop]
    by_cases he : unplaced.isEmpty = true
    · rw [if_pos he]
      rw [List.isEmpty_iff.1 he]
      simp
    · rw [if_neg he]
      have hne : unplaced ≠ [] := fun h2 => he (by simp [h2])
      have hbm := bestF_mem placed w unplaced hne
      set bestF := (match (pickBest placed w unplaced).1 with
        | some f => f
        | none => (List.insertionSort (· ≤ ·) unplaced).headD "") with hbf
      have hlen : (unplaced.erase bestF).length < f := by
        rw [List.length_erase_of_mem hbm]
        have : unplaced.length ≠ 0 := fun h2 => hne (List.length_eq_zero.1 h2)
        omega
      have hperm : List.Perm unplaced (bestF :: unplaced.erase bestF) :=
        List.perm_cons_erase hbm
      by_cases hlr : w bestF (placed.getLastD "") ≤ w bestF (placed.headD "")
      · rw [if_pos hlr]
        refine (ih _ _ hlen).trans ?_
        refine List.Perm.trans ?_ ((hperm.symm).append_left placed)
        refine List.Perm.trans (List.Perm.of_eq (by simp)) (List.perm_middle).symm
      · rw [if_neg hlr]
        refine (ih _ _ hlen).trans ?_
        refine List.Perm.trans (List.Perm.of_eq (List.append_assoc _ _ _)) ?_
        exact (hperm.symm).append_left placed

theorem orderFamilies_perm (keys : List String) (w : String → String → Nat) :
    List.Perm (orderFamilies keys w) (keys.foldl addIfNew []) := by
  unfold orderFamilies
  by_cases hl : keys.length ≤ 1
  · rw [if_pos hl]
    cases keys with
    | nil => simp
    | cons k ks =>
      cases ks with
      | nil => simp [addIfNew]
      | cons a b => simp at hl
  · rw [if_neg hl]
    have hne : keys ≠ [] := by
      intro h2
      rw [h2] at hl
      simp at hl
    have hseed : seedOf keys (fun k => (keys.map (w k)).sum) ∈ keys.foldl addIfNew [] := by
      rw [mem_foldl_addIfNew]
      exact Or.inr (seedOf_mem keys _ hne)
    have hlen : ((keys.foldl addIfNew []).erase
        (seedOf keys (fun k => (keys.map (w k)).sum))).length <
        ((keys.foldl addIfNew []).erase
          (seedOf keys (fun k => (keys.map (w k)).sum))).length + 1 := by omega
    refine (orderLoop_perm w _ _ _ hlen).trans ?_
    exact (List.perm_cons_erase hseed).symm

theorem orderFamilies_mem {keys : List String} {w : String → String → Nat} {x : String} :
    x ∈ orderFamilies keys w ↔ x ∈ keys := by
  rw [List.Perm.mem_iff (orderFamilies_perm keys w), mem_foldl_addIfNew]
  simp

theorem orderFamilies_nodup (keys : List String) (w : String → String → Nat) :
    (orderFamilies keys w).Nodup :=
  (orderFamilies_perm keys w).nodup_iff.2 (nodup_foldl_addIfNew _ _ List.nodup_nil)

/-! ## Layout totality (C3, C4) -/

theorem famFold_total (people : People) (M : String → ℚ) : ∀ ks (u l : QA),
    (∀ k ∈ ks, k ∈ familyKeysRaw people) →
    ∃ u' l' ws, famFold people M ks u l = some (u', l', ws) ∧ ws.map Prod.fst = ks := by
  intro ks
  induction ks with
  | nil => intro u l _; exact ⟨u, l, [], rfl, rfl⟩
  | cons k ks ih =>
    intro u l hk
    obtain ⟨u1, l1, w1, h1⟩ := familyPass_total people M k (hk k (List.mem_cons_self _ _)) u l
    obtain ⟨u2, l2, ws, h2, hws⟩ := ih u1 l1 (fun x hx => hk x (List.mem_cons_of_mem _ hx))
    refine ⟨u2, l2, (k, w1) :: ws, ?_, by simp [hws]⟩
    simp only [famFold]
    rw [h1]
    dsimp only
    rw [h2]

theorem scanBase_fst (ws : QA) : ∀ c, (scanBase ws c).map Prod.fst = ws.map Prod.fst := by
  induction ws with
  | nil => intro c; rfl
  | cons kw rest ih =>
    intro c
    obtain ⟨k, w⟩ := kw
    simp only [scanBase, List.map_cons]
    rw [ih]

theorem famCoords_total (people : People) (M : String → ℚ) (localM : QA) (ch : ℚ)
    (key : String) (base : ℚ) (hkey : key ∈ familyKeysRaw people) :
    ∃ cs, famCoords people M localM ch key base = some cs ∧
      ∀ n ∈ familyNodes people key, ∃ x y, (n, x, y) ∈ cs := by
  unfold famCoords
  dsimp only
  have hne := familyNodes_ne_nil hkey
  have hmapne : (familyNodes people key).map
      (fun n => (lookupA localM n).getD 0 - estW M n / 2) ≠ [] := by
    intro hmap
    exact hne (List.map_eq_nil_iff.1 hmap)
  cases hmin : qMinL ((familyNodes people key).map
      (fun n => (lookupA localM n).getD 0 - estW M n / 2)) with
  | none =>
    have := qMinL_isSome hmapne
    rw [hmin] at this
    simp at this
  | some leftEdge =>
    refine ⟨_, rfl, ?_⟩
    intro n hn
    exact ⟨_, _, List.mem_map.2 ⟨n, hn, rfl⟩⟩

theorem coordsAll_total (people : People) (M : String → ℚ) (localM : QA) (ch : ℚ) :
    ∀ baseA : QA, (∀ kb ∈ baseA, kb.1 ∈ familyKeysRaw people) →
    ∃ cs, coordsAll people M localM ch baseA = some cs ∧
      ∀ kb ∈ baseA, ∀ n ∈ familyNodes people kb.1, ∃ x y, (n, x, y) ∈ cs := by
  intro baseA
  induction baseA with
  | nil => intro _; exact ⟨[], rfl, by simp⟩
  | cons kb rest ih =>
    intro hk
    obtain ⟨k, b⟩ := kb
    obtain ⟨c1, h1, hmem1⟩ := famCoords_total people M localM ch k b
      (hk (k, b) (List.mem_cons_self _ _))
    obtain ⟨cs, h2, hmem2⟩ := ih (fun x hx => hk x (List.mem_cons_of_mem _ hx))
    refine ⟨c1 ++ cs, ?_, ?_⟩
    · simp only [coordsAll]
      rw [h1, h2]
    · intro kb2 hkb2 n hn
      rcases List.mem_cons.1 hkb2 with he | hm
      · subst he
        obtain ⟨x, y, hxy⟩ := hmem1 n hn
        exact ⟨x, y, List.mem_append_left _ hxy⟩
      · obtain ⟨x, y, hxy⟩ := hmem2 kb2 hm n hn
        exact ⟨x, y, List.mem_append_right _ hxy⟩

/-! ## BFS: totality -/

theorem pathAdj_mem_bfsUniv {people : People} {start n x : String}
    (hx : x ∈ pathAdj people n) : x ∈ bfsUniv people start := by
  unfold bfsUniv
  rw [mem_foldl_addIfNew]
  refine Or.inr (List.mem_cons_of_mem _ ?_)
  unfold pathAdj at hx
  cases hpf : personFor people n with
  | none => rw [hpf] at hx; simp at hx
  | some p =>
    rw [hpf] at hx
    simp only [Option.map_some', Option.getD_some] at hx
    exact List.mem_flatMap.2 ⟨p, (personFor_mem hpf).1, List.mem_cons_of_mem _ hx⟩

theorem bfsUniv_nodup (people : People) (start : String) : (bfsUniv people start).Nodup :=
  nodup_foldl_addIfNew _ _ List.nodup_nil

theorem length_filter_cons_lt {l vis : List String} {n : String}
    (hn : n ∈ l) (hnd : l.Nodup) (hnv : n ∉ vis) :
    (l.filter (fun x => decide (x ∉ n :: vis))).length + 1 ≤
      (l.filter (fun x => decide (x ∉ vis))).length := by
  have hsum : ∀ m : List String, m.length = (m.map (fun _ => 1)).sum := by
    intro m
    induction m with
    | nil => rfl
    | cons a t ih =>
      simp only [List.length_cons, List.map_cons, List.sum_cons, ih]
      omega
  rw [hsum (l.filter (fun x => decide (x ∉ n :: vis))),
    hsum (l.filter (fun x => decide (x ∉ vis)))]
  have := @sum_filter_remove (fun _ => 1) (fun x => decide (x ∉ n :: vis))
    (fun x => decide (x ∉ vis)) l n hn hnd ?_ ?_ ?_
  · exact this
  · intro x hx
    simp only [decide_eq_decide]
    constructor
    · intro h2 hm
      exact h2 (List.mem_cons_of_mem _ hm)
    · intro h2 hm
      rcases List.mem_cons.1 hm with he | hm2
      · exact hx he
      · exact h2 hm2
  · simp
  · simpa using hnv

theorem length_filter_anti {l v1 v2 : List String} (h : v1 ⊆ v2) :
    (l.filter (fun x => decide (x ∉ v2))).length ≤
      (l.filter (fun x => decide (x ∉ v1))).length := by
  apply List.Sublist.length_le
  apply List.monotone_filter_right
  intro a ha
  simp only [decide_eq_true_eq] at ha ⊢
  exact fun hm => ha (h hm)

theorem bfsEnqueue_measure (people : People) (start : String) (path : List String) :
    ∀ nbs q vis, (∀ x ∈ nbs, x ∈ bfsUniv people start) →
    2 * ((bfsUniv people start).filter (fun x => decide (x ∉ (bfsEnqueue path nbs q vis).2))).length +
        (bfsEnqueue path nbs q vis).1.length ≤
      2 * ((bfsUniv people start).filter (fun x => decide (x ∉ vis))).length + q.length ∧
    vis ⊆ (bfsEnqueue path nbs q vis).2 := by
  intro nbs
  induction nbs with
  | nil => intro q vis _; exact ⟨le_refl _, fun x hx => hx⟩
  | cons nb nbs ih =>
    intro q vis hmem
    by_cases hv : nb ∈ vis
    · have he : bfsEnqueue path (nb :: nbs) q vis = bfsEnqueue path nbs q vis := by
        simp [bfsEnqueue, hv]
      rw [he]
      exact ih q vis (fun x hx => hmem x (List.mem_cons_of_mem _ hx))
    · have he : bfsEnqueue path (nb :: nbs) q vis =
          bfsEnqueue path nbs (q ++ [path ++ [nb]]) (nb :: vis) := by
        simp [bfsEnqueue, hv]
      rw [he]
      obtain ⟨hm, hsub⟩ := ih (q ++ [path ++ [nb]]) (nb :: vis)
        (fun x hx => hmem x (List.mem_cons_of_mem _ hx))
      constructor
      · refine le_trans hm ?_
        have hlt := @length_filter_cons_lt (bfsUniv people start) vis nb
          (hmem nb (List.mem_cons_self _ _)) (bfsUniv_nodup people start) hv
        rw [List.length_append]
        simp only [List.length_cons, List.length_nil]
        omega
      · exact fun x hx => hsub (List.mem_cons_of_mem _ hx)

theorem bfsGo_total (people : People) (start target : String) : ∀ fuel Q vis,
    2 * ((bfsUniv people start).filter (fun x => decide (x ∉ vis))).length + Q.length < fuel →
    (bfsGo people target fuel Q vis).isSome = true := by
  intro fuel
  induction fuel with
  | zero => intro Q vis h; omega
  | succ f ih =>
    intro Q vis h
    cases Q with
    | nil => simp [bfsGo]
    | cons path rest =>
      simp only [bfsGo]
      by_cases hh : path.getLastD "" = target
      · rw [if_pos hh]
        rfl
      · rw [if_neg hh]
        obtain ⟨hm, -⟩ := bfsEnqueue_measure people start path
          (pathAdj people (path.getLastD "")) rest vis
          (fun x hx => pathAdj_mem_bfsUniv hx)
        refine ih _ _ ?_
        simp only [List.length_cons] at h
        omega

theorem findPath_not_fuelOut (people : People) (p1 p2 : String) :
    findPath people p1 p2 ≠ .fuelOut := by
  unfold findPath
  by_cases h1 : p1 ∉ people.map Person.name
  · rw [if_pos h1]
    intro h
    cases h
  · rw [if_neg h1]
    by_cases h2 : p2 ∉ people.map Person.name
    · rw [if_pos h2]
      intro h
      cases h
    · rw [if_neg h2]
      have htot := bfsGo_total people p1 p2 (bfsFuel people p1) [[p1]] [p1] ?_
      · cases hrec : bfsGo people p2 (bfsFuel people p1) [[p1]] [p1] with
        | none => rw [hrec] at htot; simp at htot
        | some r =>
          cases r with
          | none => simp
          | some p => simp
      · unfold bfsFuel
        have := List.length_filter_le (fun x => decide (x ∉ ([p1] : List String)))
          (bfsUniv people p1)
        simp only [List.length_cons, List.length_nil]
        omega

/-! ## C3: every entity receives finite, defined coordinates -/

theorem mem_map_fst_exists {l : QA} {k : String} (h : k ∈ l.map Prod.fst) :
    ∃ b, (k, b) ∈ l := by
  rcases List.mem_map.1 h with ⟨kb, hkb, rfl⟩
  exact ⟨kb.2, hkb⟩

theorem layoutRun_total (people : People) (M : String → ℚ) (cw ch : ℚ) :
    ∃ out, layoutRun people M cw ch = some out ∧
      ∀ n ∈ namesOf people, ∃ x y, (n, x, y) ∈ out.coords := by
  unfold layoutRun
  dsimp only
  have hkeys : ∀ k ∈ orderFamilies (familyKeysRaw people) (crossW people),
      k ∈ familyKeysRaw people := fun k hk => orderFamilies_mem.1 hk
  obtain ⟨u, l, ws, hfold, hws⟩ := famFold_total people M _ [] [] hkeys
  rw [hfold]
  dsimp only
  have hbase : ∀ kb ∈ (scanBase ws 0).map
      (fun kb => (kb.1, kb.2 + (cw / 2 - ((ws.map (fun kw => kw.2 + 80)).sum - 80) / 2))),
      kb.1 ∈ familyKeysRaw people := by
    intro kb hkb
    rcases List.mem_map.1 hkb with ⟨kb0, hkb0, rfl⟩
    have : kb0.1 ∈ (scanBase ws 0).map Prod.fst := List.mem_map.2 ⟨kb0, hkb0, rfl⟩
    rw [scanBase_fst, hws] at this
    exact hkeys _ this
  obtain ⟨cs, hcs, hmem⟩ := coordsAll_total people M l ch _ hbase
  rw [hcs]
  refine ⟨_, rfl, ?_⟩
  intro n hn
  have hk1 : primaryKey people n ∈ familyKeysRaw people :=
    mem_familyKeysRaw.2 ⟨n, hn, rfl⟩
  have hk2 : primaryKey people n ∈ (scanBase ws 0).map Prod.fst := by
    rw [scanBase_fst, hws]
    exact orderFamilies_mem.2 hk1
  obtain ⟨b0, hb0⟩ := mem_map_fst_exists hk2
  have hkb : (primaryKey people n, b0 + (cw / 2 -
      ((ws.map (fun kw => kw.2 + 80)).sum - 80) / 2)) ∈ (scanBase ws 0).map
      (fun kb => (kb.1, kb.2 + (cw / 2 - ((ws.map (fun kw => kw.2 + 80)).sum - 80) / 2))) :=
    List.mem_map.2 ⟨(primaryKey people n, b0), hb0, rfl⟩
  have hfam : n ∈ familyNodes people (primaryKey people n) := by
    unfold familyNodes
    exact List.mem_filter.2 ⟨hn, by simp⟩
  exact hmem _ hkb n hfam

/-- C3: a full layout pass over any finite input record set — cycles,
multiple bigs, leafless clusters included — succeeds (no `NaN`, `undefined`
or infinite value arises: the `Option`-modelled non-finite outcomes are never
produced) and assigns every entity a pair of rational coordinates. -/
theorem C3_layout_total_and_finite (people : People) (M : String → ℚ) (cw ch : ℚ) :
    ∃ out, layoutRun people M cw ch = some out ∧
      ∀ n ∈ namesOf people, ∃ x y, (n, x, y) ∈ out.coords :=
  layoutRun_total people M cw ch

/-- C4: every layout pass and every shortest-path search terminates on every
finite input: the depth recursion, the cluster placement recursion and the
whole layout complete within their canonical fuel, and the BFS never runs
out of fuel. -/
theorem C4_termination (people : People) (M : String → ℚ) (cw ch : ℚ) :
    (layoutRun people M cw ch).isSome = true ∧
    (∀ n ∈ namesOf people, (depthGo people (depthFuel people) [] [n] 0).isSome = true) ∧
    (∀ key ∈ familyKeysRaw people, ∀ u0 l0 : QA,
      ∃ s', placeRoots people key (placeFuel people) (rootsOf people key)
        ⟨u0, 0, []⟩ = some s') ∧
    (∀ p1 p2, findPath people p1 p2 ≠ .fuelOut) := by
  refine ⟨?_, ?_, ?_, fun p1 p2 => findPath_not_fuelOut people p1 p2⟩
  · obtain ⟨out, hout, -⟩ := layoutRun_total people M cw ch
    rw [hout]
    rfl
  · intro n hn
    obtain ⟨v, vis', hrec, -⟩ := depthOf_total people n hn
    rw [hrec]
    rfl
  · intro key hkey u0 l0
    exact placeRoots_total people key (rootsOf people key) ⟨u0, 0, []⟩
      (fun r hr => rootsOf_mem hr)
      (lt_of_le_of_lt (placeMu_le_total people _) (by unfold placeFuel; omega))

/-! ## C6 (amended): unresolved references resolve to empty adjacency and an
entity whose declared bigs all fail to resolve gets depth 1 -/

/-- C6 (amended): a reference naming an identity absent from the record set
resolves to an empty adjacency entry (no littles, no bigs, no connections) and
is not an error; but such a name still occurs in its referrer's lists, so an
entity all of whose declared bigs fail to resolve is assigned depth 1 — each
unresolved big is traversed as a depth-0 root — not depth 0. -/
theorem C6_unresolved_references (people : People) (e : String) (pe : Person)
    (hpe : personFor people e = some pe) (hne : pe.bigs ≠ [])
    (hall : ∀ b ∈ pe.bigs, personFor people b = none) :
    (∀ n, personFor people n = none →
      pathAdj people n = [] ∧ bigsOf people n = [] ∧ littlesOf people n = []) ∧
    depthOf people e = 1 := by
  constructor
  · intro n hn
    unfold pathAdj bigsOf littlesOf
    rw [hn]
    exact ⟨rfl, rfl, rfl⟩
  · have hbe : bigsOf people e = pe.bigs := by unfold bigsOf; rw [hpe]; rfl
    have heu : e ∈ depthUniv people := by
      refine name_mem_depthUniv (personFor_isSome_iff.1 ?_)
      rw [hpe]
      rfl
    have hlen : pe.bigs.length + 1 ≤ depthPotential people [] := by
      have h1 : (bigsOf people e).length + 1 ≤ depthPotential people [] := by
        rw [depthPotential_eq]
        have hf : (depthUniv people).filter (fun x => decide (x ∉ ([] : List String))) =
            depthUniv people := by simp
        rw [hf]
        exact List.single_le_sum (fun x _ => Nat.zero_le x) _ (List.mem_map.2 ⟨e, heu, rfl⟩)
      rwa [hbe] at h1
    obtain ⟨vis', hrec⟩ := depthGo_leafList people pe.bigs (depthPotential people [] + 1) [e] 1
      (fun b hb => by unfold bigsOf; rw [hall b hb]; rfl) (by omega)
    have hne' : (bigsOf people e).isEmpty = false := by
      rw [hbe]
      cases hb : pe.bigs with
      | nil => exact absurd hb hne
      | cons a l => rfl
    have hstep : depthGo people (depthPotential people [] + 1 + 1) [] [e] 0 =
        some ([maxList (pe.bigs.map fun _ => 1)], vis') := by
      simp only [depthGo]
      rw [if_neg (List.not_mem_nil e), hne', hbe]
      simp only [Bool.false_eq_true, if_false]
      rw [hrec]
    have hfuel : depthFuel people = depthPotential people [] + 1 + 1 := by
      unfold depthFuel
      omega
    unfold depthOf
    rw [hfuel, hstep, maxList_const pe.bigs 1 hne]

theorem C6_unresolved_references_witness :
    (∀ n, personFor exGhost n = none →
      pathAdj exGhost n = [] ∧ bigsOf exGhost n = [] ∧ littlesOf exGhost n = []) ∧
    depthOf exGhost "e" = 1 :=
  C6_unresolved_references exGhost "e" ⟨"e", [], ["ghost"], []⟩ (by decide) (by decide)
    (by decide)

/-! ## C10: a search whose endpoints are the same existing entity -/

theorem bfsGo_first_hit (people : People) (t : String) (fuel : Nat)
    (rest : List (List String)) (vis : List String) :
    bfsGo people t (fuel + 1) ([t] :: rest) vis = some (some [t]) := by
  simp [bfsGo, List.getLastD]

/-- C10: when the source and target resolve to the same entity present in
the record set, the search returns the single-element path `[s]` (zero
edges), not a "no path" outcome. -/
theorem C10_same_source_target (people : People) (s : String)
    (h : s ∈ people.map Person.name) :
    findPath people s s = .path [s] := by
  unfold findPath
  rw [if_neg (not_not_intro h), if_neg (not_not_intro h)]
  obtain ⟨m, hm⟩ : ∃ m, bfsFuel people s = m + 1 :=
    ⟨2 * (bfsUniv people s).length + 1, by unfold bfsFuel; omega⟩
  rw [hm, bfsGo_first_hit]

theorem C10_same_source_target_witness :
    "a" ∈ exSingle.map Person.name ∧ findPath exSingle "a" "a" = .path ["a"] :=
  ⟨by decide, C10_same_source_target exSingle "a" (by decide)⟩

/-! ## Counterexamples -/

/-- C2 fails on the code: `exDepth` is acyclic (certified by the rank
function `rankDepth`) and fully resolving, `b2` is a big of `e`, yet the
computed `depth e = 2` is smaller than `1 + depth b2 = 3`, because the
visited set shared across sibling branches truncates the second traversal of
the common ancestor `x`. -/
theorem C2_counterexample :
    rankedB exDepth rankDepth = true ∧ resolvesB exDepth = true ∧
    "b2" ∈ bigsOf exDepth "e" ∧
    depthOf exDepth "e" < 1 + depthOf exDepth "b2" := by
  with_unfolding_all decide

/-- C5 fails on the code: on the record set `exOrd` (clusters in input order
`s, b, a`, equal-weight tie between `b` and `a` after the seed) the engine
picks `b` (input order) while the claim's lexicographic tie-break picks `a`,
yielding different chains. -/
theorem C5_counterexample :
    orderFamilies (familyKeysRaw exOrd) (crossW exOrd) = ["b", "s", "a"] ∧
    specOrderLex (familyKeysRaw exOrd) (crossW exOrd) = ["a", "s", "b"] ∧
    orderFamilies (familyKeysRaw exOrd) (crossW exOrd) ≠
      specOrderLex (familyKeysRaw exOrd) (crossW exOrd) := by
  with_unfolding_all decide

/-- C6 fails on the code: an entity whose only declared big does not resolve
gets depth `1`, not `0` — the unresolved name is traversed as a root rather
than dropped. -/
theorem C6_counterexample :
    (∀ b ∈ bigsOf exGhost "e", (personFor exGhost b).isSome = false) ∧
    bigsOf exGhost "e" ≠ [] ∧
    depthOf exGhost "e" = 1 ∧ depthOf exGhost "e" ≠ 0 := by
  with_unfolding_all decide

/-- C8 fails on the code: in `exCycle` the littles-cycle `p ↔ c` gives the
parent `p` a larger computed depth than its little `c`, so the centering
sweep finalizes `p` before `c`; `p` ends at local position `17` while the
mean of its littles' final positions is `17/2`. -/
theorem C8_counterexample :
    inFamKids exCycle (primaryKey exCycle "p") "p" ≠ [] ∧
    layoutLocal exCycle mZero 1000 800 "p" = some 17 ∧
    layoutKidsMean exCycle mZero 1000 800 "p" = some (17 / 2) ∧
    (17 : ℚ) ≠ 17 / 2 := by
  with_unfolding_all decide


/-! ## C5 (amended): the cluster order is the input-order-ties greedy chain -/

/-- The first element attaining the maximal score is the result of the
strict-improvement fold: the `find?` in `argmaxFirst` agrees with the
`best`-updating scan of the source. -/
theorem find_max_foldl (total : String → Nat) :
    ∀ (l : List String) (b : String),
      List.find? (fun x => total x == ((b :: l).map total).foldr max 0) (b :: l) =
        some (l.foldl (fun best cand => if total best < total cand then cand else best) b) := by
  intro l
  induction l with
  | nil =>
    intro b
    have hp : (fun x => total x == (([b].map total)).foldr max 0) b = true := by
      simp
    rw [@List.find?_cons_of_pos _ (fun x => total x == (([b].map total)).foldr max 0) b [] hp]
    rfl
  | cons x xs ih =>
    intro b
    have hmx : ((b :: x :: xs).map total).foldr max 0
        = max (total b) (((x :: xs).map total).foldr max 0) := rfl
    by_cases hc : total b < total x
    · have htx : total x ≤ ((x :: xs).map total).foldr max 0 := le_max_left _ _
      have hbm : total b < ((x :: xs).map total).foldr max 0 := lt_of_lt_of_le hc htx
      have h1 : ((b :: x :: xs).map total).foldr max 0
          = ((x :: xs).map total).foldr max 0 := by
        rw [hmx]; exact max_eq_right (le_of_lt hbm)
      have hp : ¬ ((fun y => total y == ((b :: x :: xs).map total).foldr max 0) b = true) := by
        simp only [h1, beq_iff_eq]
        exact Nat.ne_of_lt hbm
      rw [@List.find?_cons_of_neg _
        (fun y => total y == ((b :: x :: xs).map total).foldr max 0) b (x :: xs) hp, h1, ih x]
      have hstep : List.foldl (fun best cand => if total best < total cand then cand else best)
          b (x :: xs)
          = List.foldl (fun best cand => if total best < total cand then cand else best) x xs := by
        rw [List.foldl_cons]
        congr 1
        exact if_pos hc
      rw [hstep]
    · have htx : total x ≤ total b := Nat.le_of_not_lt hc
      have h2 : ((b :: x :: xs).map total).foldr max 0
          = max (total b) ((xs.map total).foldr max 0) := by
        rw [hmx]
        have : ((x :: xs).map total).foldr max 0
            = max (total x) ((xs.map total).foldr max 0) := rfl
        rw [this, ← max_assoc, max_eq_left htx]
      have h3 : ((b :: xs).map total).foldr max 0
          = max (total b) ((xs.map total).foldr max 0) := rfl
      have hstep : List.foldl (fun best cand => if total best < total cand then cand else best)
          b (x :: xs)
          = List.foldl (fun best cand => if total best < total cand then cand else best) b xs := by
        rw [List.foldl_cons]
        congr 1
        exact if_neg hc
      rw [hstep]
      by_cases hb : total b = max (total b) ((xs.map total).foldr max 0)
      · have hfold : List.foldl (fun best cand => if total best < total cand then cand else best)
            b xs = b := by
          have hih := ih b
          rw [h3] at hih
          rw [@List.find?_cons_of_pos _
            (fun y => total y == max (total b) ((xs.map total).foldr max 0)) b xs
            (by simp only [beq_iff_eq]; exact hb)] at hih
          exact (Option.some.injEq _ _ ▸ hih).symm
        have hpb : (fun y => total y == ((b :: x :: xs).map total).foldr max 0) b = true := by
          simp only [h2, beq_iff_eq]
          exact hb
        rw [@List.find?_cons_of_pos _
          (fun y => total y == ((b :: x :: xs).map total).foldr max 0) b (x :: xs) hpb, hfold]
      · have hble : total b ≤ max (total b) ((xs.map total).foldr max 0) := le_max_left _ _
        have hpb : ¬ ((fun y => total y == ((b :: x :: xs).map total).foldr max 0) b = true) := by
          simp only [h2, beq_iff_eq]
          exact hb
        have hpx : ¬ ((fun y => total y == ((b :: x :: xs).map total).foldr max 0) x = true) := by
          simp only [h2, beq_iff_eq]
          omega
        rw [@List.find?_cons_of_neg _
          (fun y => total y == ((b :: x :: xs).map total).foldr max 0) b (x :: xs) hpb,
          @List.find?_cons_of_neg _
          (fun y => total y == ((b :: x :: xs).map total).foldr max 0) x xs hpx, h2]
        have hih := ih b
        rw [h3] at hih
        rw [@List.find?_cons_of_neg _
          (fun y => total y == max (total b) ((xs.map total).foldr max 0)) b xs
          (by simp only [beq_iff_eq]; exact hb)] at hih
        exact hih

/-- The integer-scored fold of `pickBest`, once its accumulator holds a real
candidate, tracks the plain best-element fold together with its score. -/
theorem pick_fold_int (s : String → Int) :
    ∀ (l : List String) (b : String),
      l.foldl (fun acc f => if acc.2 < s f then (some f, s f) else acc)
          ((some b : Option String), s b) =
        (some (l.foldl (fun best cand => if s best < s cand then cand else best) b),
          s (l.foldl (fun best cand => if s best < s cand then cand else best) b)) := by
  intro l
  induction l with
  | nil => intro b; rfl
  | cons x xs ih =>
    intro b
    simp only [List.foldl_cons]
    by_cases hc : s b < s x
    · rw [if_pos hc, if_pos hc]
      exact ih x
    · rw [if_neg hc, if_neg hc]
      exact ih b

/-- The `pickBest` scan of the source selects exactly the first unplaced
cluster attaining the maximal placed-weight score: the `-1` integer seed is
beaten by every score, so the lexicographic fallback never fires. -/
theorem pickBest_fst_eq_argmaxFirst (placed : List String) (w : String → String → Nat)
    (unplaced : List String) (hne : unplaced ≠ []) :
    (pickBest placed w unplaced).1 =
      argmaxFirst (fun f => (placed.map (w f)).sum) unplaced := by
  have hsc : ∀ f : String, ((placed.map (fun p => ((w f p : Int)))).sum)
      = (((placed.map (w f)).sum : Nat) : Int) := by
    intro f
    rw [Nat.cast_list_sum, List.map_map]
    rfl
  cases unplaced with
  | nil => exact absurd rfl hne
  | cons c rest =>
    unfold pickBest
    have hg : (fun (acc : Option String × Int) f =>
          let score : Int := ((placed.map (fun p => ((w f p : Int)))).sum)
          if acc.2 < score then (some f, score) else acc) =
        (fun (acc : Option String × Int) f =>
          if acc.2 < (((placed.map (w f)).sum : Nat) : Int)
          then (some f, (((placed.map (w f)).sum : Nat) : Int)) else acc) := by
      funext acc f
      dsimp only
      rw [hsc f]
    rw [hg, List.foldl_cons]
    have hneg : ((none : Option String), (-1 : Int)).2
        < (((placed.map (w c)).sum : Nat) : Int) := by
      have := Int.natCast_nonneg ((placed.map (w c)).sum)
      dsimp only
      omega
    rw [if_pos hneg]
    have h2 := pick_fold_int (fun f => (((placed.map (w f)).sum : Nat) : Int)) rest c
    have hpick : (fun (best cand : String) =>
          if (((placed.map (w best)).sum : Nat) : Int)
              < (((placed.map (w cand)).sum : Nat) : Int) then cand else best)
        = (fun (best cand : String) =>
          if (placed.map (w best)).sum < (placed.map (w cand)).sum then cand else best) := by
      funext bb cc
      by_cases h : (placed.map (w bb)).sum < (placed.map (w cc)).sum
      · rw [if_pos (Nat.cast_lt.2 h), if_pos h]
      · rw [if_neg (fun hh => h (Nat.cast_lt.1 hh)), if_neg h]
    rw [hpick] at h2
    rw [h2]
    unfold argmaxFirst
    exact (find_max_foldl (fun f => (placed.map (w f)).sum) rest c).symm

/-- The placing loop of the source and the input-order-ties greedy loop of
the spec agree step by step. -/
theorem orderLoop_eq_specLoopInput (w : String → String → Nat) :
    ∀ (fuel : Nat) (placed unplaced : List String),
      orderLoop w fuel placed unplaced = specLoopInput w fuel placed unplaced := by
  intro fuel
  induction fuel with
  | zero => intro placed unplaced; rfl
  | succ fuel ih =>
    intro placed unplaced
    cases unplaced with
    | nil => rfl
    | cons c rest =>
      have hpb := pickBest_fst_eq_argmaxFirst placed w (c :: rest) (by simp)
      obtain ⟨bf, hbf⟩ : ∃ bf, argmaxFirst (fun f => (placed.map (w f)).sum) (c :: rest)
          = some bf :=
        ⟨_, find_max_foldl (fun f => (placed.map (w f)).sum) rest c⟩
      simp only [orderLoop, specLoopInput]
      rw [hpb, hbf]
      dsimp only
      rw [if_neg (by simp : ¬ ((c :: rest).isEmpty = true))]
      unfold specInsert
      exact ih _ _

/-- Folding `addIfNew` over a list already free of duplicates (relative to
the accumulator) just appends it. -/
theorem foldl_addIfNew_of_nodup :
    ∀ (l acc : List String), (acc ++ l).Nodup → l.foldl addIfNew acc = acc ++ l := by
  intro l
  induction l with
  | nil => intro acc _; simp
  | cons a rest ih =>
    intro acc h
    have hsplit := List.nodup_append.1 h
    have ha : a ∉ acc := fun hmem => hsplit.2.2 hmem (List.mem_cons_self a rest)
    simp only [List.foldl_cons]
    have hstep : addIfNew acc a = acc ++ [a] := by
      unfold addIfNew
      rw [if_neg ha]
    rw [hstep]
    have h2 : ((acc ++ [a]) ++ rest).Nodup := by
      rw [List.append_assoc]
      exact h
    rw [ih (acc ++ [a]) h2]
    simp

/-- The family key list carries no duplicate keys. -/
theorem familyKeysRaw_nodup (people : People) : (familyKeysRaw people).Nodup := by
  unfold familyKeysRaw
  rw [← List.foldl_map]
  exact nodup_foldl_addIfNew _ _ List.nodup_nil

/-- On a duplicate-free key list the source ordering routine coincides with
the greedy chain construction whose pick ties follow input order. -/
theorem orderFamilies_eq_specOrderInput_of_nodup (keys : List String)
    (w : String → String → Nat) (hnd : keys.Nodup) :
    orderFamilies keys w = specOrderInput keys w := by
  have huniq : keys.foldl addIfNew [] = keys := by
    simpa using foldl_addIfNew_of_nodup keys [] (by simpa using hnd)
  cases keys with
  | nil => rfl
  | cons c rest =>
    by_cases hlen : (c :: rest).length ≤ 1
    · have hrest : rest = [] := by
        cases rest with
        | nil => rfl
        | cons d ds => simp at hlen
      subst hrest
      unfold orderFamilies specOrderInput
      rw [if_pos hlen]
      have hu : ([c] : List String).foldl addIfNew [] = [c] := rfl
      rw [hu]
      have hseed : argmaxFirst (fun k => (([c] : List String).map (w k)).sum) [c] = some c := by
        unfold argmaxFirst
        rw [@List.find?_cons_of_pos _
          (fun x => (([c] : List String).map (w x)).sum
            == (([c].map (fun k => (([c] : List String).map (w k)).sum)).foldr max 0)) c []
          (by simp)]
      dsimp only
      rw [hseed]
      dsimp only
      rw [List.erase_cons_head]
      rfl
    · unfold orderFamilies specOrderInput
      rw [if_neg hlen]
      dsimp only
      rw [huniq]
      have hseedOf : seedOf (c :: rest) (fun k => ((c :: rest).map (w k)).sum)
          = rest.foldl (fun best cand =>
              if ((c :: rest).map (w best)).sum < ((c :: rest).map (w cand)).sum
              then cand else best) c := by
        unfold seedOf
        simp only [List.headD_cons, List.foldl_cons]
        rw [if_neg (lt_irrefl _)]
      have hseed : argmaxFirst (fun k => ((c :: rest).map (w k)).sum) (c :: rest)
          = some (seedOf (c :: rest) (fun k => ((c :: rest).map (w k)).sum)) := by
        unfold argmaxFirst
        rw [hseedOf]
        exact find_max_foldl (fun k => ((c :: rest).map (w k)).sum) rest c
      rw [hseed]
      dsimp only
      have hmem : seedOf (c :: rest) (fun k => ((c :: rest).map (w k)).sum) ∈ c :: rest :=
        seedOf_mem _ _ (by simp)
      have hfuel : ((c :: rest).erase
            (seedOf (c :: rest) (fun k => ((c :: rest).map (w k)).sum))).length + 1
          = (c :: rest).length := by
        rw [List.length_erase_of_mem hmem]
        simp
      rw [hfuel]
      exact orderLoop_eq_specLoopInput w _ _ _

/-- C5 (corrected): for every input record set the left-to-right cluster
order equals the greedy chain construction — seed with the largest total
cross-cluster weight, then repeatedly attach the unplaced cluster with the
highest weight to the placed ones at the better-connected end (left on
ties) — with the repeated pick's ties broken by input order (first
appearance), not lexicographically; the lexicographic fallback of the
source is unreachable. -/
theorem C5_cluster_order (people : People) :
    orderFamilies (familyKeysRaw people) (crossW people) =
      specOrderInput (familyKeysRaw people) (crossW people) :=
  orderFamilies_eq_specOrderInput_of_nodup _ _ (familyKeysRaw_nodup people)

/-! ## C8 (amended): parents are centered over their littles -/

/-- The by-depth centering fold writes only the processed node, so names not
in the processed list keep their looked-up position. -/
theorem c8_fold_frame (people : People) (key : String) :
    ∀ (l : List String) (loc : QA) (x : String), x ∉ l →
      lookupA (l.foldl (fun loc m =>
        if (inFamKids people key m).length = 0 then loc
        else (m, ((inFamKids people key m).map (fun c => (lookupA loc c).getD 0)).sum
          / ((inFamKids people key m).length : ℚ)) :: loc) loc) x = lookupA loc x := by
  intro l
  induction l with
  | nil => intro loc x _; rfl
  | cons q rest ih =>
    intro loc x hx
    have hxq : x ≠ q := fun he => hx (he ▸ List.mem_cons_self q rest)
    have hxr : x ∉ rest := fun hm => hx (List.mem_cons_of_mem _ hm)
    simp only [List.foldl_cons]
    rw [ih _ x hxr]
    by_cases hq : (inFamKids people key q).length = 0
    · rw [if_pos hq]
    · rw [if_neg hq, lookupA_cons]
      rw [if_neg (fun he => hxq he.symm)]

/-- Splitting the by-depth fold at a node `n` whose littles are neither `n`
itself nor processed after `n`: the value written at `n` is the mean of the
positions of the littles, and those positions survive to the end of the
fold. -/
theorem c8_fold_mean (people : People) (key : String) (t1 t2 : List String) (n : String)
    (loc0 : QA) (hn2 : n ∉ t2)
    (hkids : (inFamKids people key n).length ≠ 0)
    (hc2 : ∀ c ∈ inFamKids people key n, c ≠ n ∧ c ∉ t2) :
    lookupA ((t1 ++ n :: t2).foldl (fun loc m =>
        if (inFamKids people key m).length = 0 then loc
        else (m, ((inFamKids people key m).map (fun c => (lookupA loc c).getD 0)).sum
          / ((inFamKids people key m).length : ℚ)) :: loc) loc0) n
      = some (((inFamKids people key n).map (fun c =>
          (lookupA ((t1 ++ n :: t2).foldl (fun loc m =>
            if (inFamKids people key m).length = 0 then loc
            else (m, ((inFamKids people key m).map (fun c => (lookupA loc c).getD 0)).sum
              / ((inFamKids people key m).length : ℚ)) :: loc) loc0) c).getD 0)).sum
        / ((inFamKids people key n).length : ℚ)) := by
  have hfr := c8_fold_frame people key
  set F : QA → String → QA := (fun loc m =>
    if (inFamKids people key m).length = 0 then loc
    else (m, ((inFamKids people key m).map (fun c => (lookupA loc c).getD 0)).sum
      / ((inFamKids people key m).length : ℚ)) :: loc) with hF
  rw [List.foldl_append, List.foldl_cons]
  have hFn : F (t1.foldl F loc0) n
      = (n, ((inFamKids people key n).map
          (fun c => (lookupA (t1.foldl F loc0) c).getD 0)).sum
        / ((inFamKids people key n).length : ℚ)) :: t1.foldl F loc0 := by
    rw [hF]
    exact if_neg hkids
  rw [hFn]
  rw [hfr t2 _ n hn2, lookupA_cons, if_pos rfl]
  have hmap : (inFamKids people key n).map
        (fun c => (lookupA (t2.foldl F ((n, ((inFamKids people key n).map
          (fun c => (lookupA (t1.foldl F loc0) c).getD 0)).sum
            / ((inFamKids people key n).length : ℚ)) :: t1.foldl F loc0)) c).getD 0)
      = (inFamKids people key n).map (fun c => (lookupA (t1.foldl F loc0) c).getD 0) := by
    apply List.map_congr_left
    intro c hc
    rw [hfr t2 _ c (hc2 c hc).2, lookupA_cons, if_neg (fun he => (hc2 c hc).1 he.symm)]
  rw [hmap]

/-- Reading the final span match of `familyPass`. -/
theorem familyPass_match_inv {A B : QA} {o1 o2 : Option ℚ} {u l : QA} {sp : ℚ}
    (h : (match o1, o2 with
          | some mx, some mn => some (A, B, mx - mn)
          | _, _ => none) = some (u, l, sp)) : A = u ∧ B = l := by
  rcases o1 with _ | mx
  · exact Option.noConfusion h
  · rcases o2 with _ | mn
    · exact Option.noConfusion h
    · have h2 := Option.some.inj h
      simp only [Prod.mk.injEq] at h2
      exact ⟨h2.1, h2.2.1⟩

/-- C8 (amended): at the end of the intra-cluster positioning pass, provided
every in-cluster little carries a strictly greater computed depth than its
parent, every entity with at least one in-cluster little ends with a final
local position equal to the arithmetic mean of the final local positions of
those littles: the finalization sweep runs in descending computed-depth
order, so the proviso makes littles finalize before their parents.  The
proviso is a condition on the computed depths, not on the littles topology:
it fails when littles-cycles make a little at most as deep as its parent
(the counterexample), and it can also fail in littles-acyclic clusters,
where the shared visited set of the depth recursion equalizes a parent and
its little on diamond ancestries (`exDiamond_acyclic_mean_fails`). -/
theorem C8_parent_mean (people : People) (M : String → ℚ) (key : String)
    (u0 l0 u1 l1 : QA) (spanq : ℚ)
    (hdepth : ∀ x ∈ familyNodes people key, ∀ c ∈ inFamKids people key x,
      depthOf people x < depthOf people c)
    (hpass : familyPass people M key u0 l0 = some (u1, l1, spanq))
    (n : String) (hn : n ∈ familyNodes people key)
    (hkids : (inFamKids people key n).length ≠ 0) :
    lookupA l1 n = some (((inFamKids people key n).map
        (fun c => (lookupA l1 c).getD 0)).sum / ((inFamKids people key n).length : ℚ)) := by
  unfold familyPass at hpass
  rcases hpr : placeRoots people key (placeFuel people) (rootsOf people key) ⟨u0, 0, []⟩
    with _ | s
  · rw [hpr] at hpass
    exact Option.noConfusion hpass
  · rw [hpr] at hpass
    dsimp only at hpass
    by_cases hfam : (familyNodes people key).length = 0
    · rw [if_pos hfam] at hpass
      exact Option.noConfusion hpass
    · rw [if_neg hfam] at hpass
      obtain ⟨hu, hl⟩ := familyPass_match_inv hpass
      subst hl
      haveI hTot : IsTotal String (fun a b => depthOf people b ≤ depthOf people a) :=
        ⟨fun a b => le_total _ _⟩
      haveI hTrans : IsTrans String (fun a b => depthOf people b ≤ depthOf people a) :=
        ⟨fun a b c h1 h2 => le_trans h2 h1⟩
      have hfamnd : (familyNodes people key).Nodup :=
        (namesOf_nodup people).filter _
      have hsortnd : (List.insertionSort (fun a b => depthOf people b ≤ depthOf people a)
          (familyNodes people key)).Nodup :=
        (List.perm_insertionSort _ _).nodup_iff.2 hfamnd
      have hmemD : n ∈ List.insertionSort (fun a b => depthOf people b ≤ depthOf people a)
          (familyNodes people key) :=
        (List.perm_insertionSort _ _).mem_iff.2 hn
      obtain ⟨t1, t2, hsplit⟩ := List.append_of_mem hmemD
      have hsort : List.Pairwise (fun a b => depthOf people b ≤ depthOf people a)
          (t1 ++ n :: t2) := by
        rw [← hsplit]
        exact List.sorted_insertionSort _ _
      rw [hsplit] at hsortnd
      have hn2 : n ∉ t2 :=
        (List.nodup_cons.1 (List.nodup_append.1 hsortnd).2.1).1
      have hr : ∀ c ∈ t2, depthOf people c ≤ depthOf people n :=
        fun c hc => (List.pairwise_cons.1 (List.pairwise_append.1 hsort).2.1).1 c hc
      have hc2 : ∀ c ∈ inFamKids people key n, c ≠ n ∧ c ∉ t2 := by
        intro c hc
        have hlt := hdepth n hn c hc
        refine ⟨fun he => ?_, fun hmem => absurd (hr c hmem) (not_le.2 hlt)⟩
        rw [he] at hlt
        exact lt_irrefl _ hlt
      rw [hsplit] at hpass ⊢
      exact c8_fold_mean people key t1 t2 n _ hn2 hkids hc2

theorem C8_parent_mean_witness :
    (∀ x ∈ familyNodes exTwoLeaves "f", ∀ c ∈ inFamKids exTwoLeaves "f" x,
        depthOf exTwoLeaves x < depthOf exTwoLeaves c) ∧
    lookupA [("r", (34 : ℚ)), ("r", 34), ("u", 0), ("v", 68)] "r"
      = some (((inFamKids exTwoLeaves "f" "r").map
          (fun c => (lookupA [("r", (34 : ℚ)), ("r", 34), ("u", 0), ("v", 68)] c).getD 0)).sum
        / ((inFamKids exTwoLeaves "f" "r").length : ℚ)) :=
  ⟨by with_unfolding_all decide,
   C8_parent_mean exTwoLeaves mZero "f" [] []
     [("r", (1 : ℚ)/2), ("v", 1), ("u", 0)]
     [("r", (34 : ℚ)), ("r", 34), ("u", 0), ("v", 68)] 128
     (by with_unfolding_all decide)
     (by with_unfolding_all decide)
     "r" (by with_unfolding_all decide) (by with_unfolding_all decide)⟩

/-! ## C7: leaf spacing within a cluster -/

theorem leafGo_head (M : String → ℚ) (prev : String) (pos : ℚ) (cs : List String) :
    (leafGo M prev pos cs).head? = some (prev, pos) := by
  cases cs <;> rfl

theorem leafGo_mem_head (M : String → ℚ) (prev : String) (pos : ℚ) (cs : List String) :
    (prev, pos) ∈ leafGo M prev pos cs := by
  cases cs <;> exact List.mem_cons_self _ _

/-- The pixel positions form the exact chain of the claim, and — for
non-negative label measurements — strictly increase along it. -/
theorem leafGo_chain (M : String → ℚ) (hM : ∀ x, 0 ≤ M x) :
    ∀ (cs : List String) (prev : String) (pos : ℚ),
      List.Chain' (fun a b : String × ℚ =>
        b.2 = a.2 + (estW M a.1 + estW M b.1) / 2 + 8 ∧ a.2 < b.2) (leafGo M prev pos cs) := by
  intro cs
  induction cs with
  | nil => intro prev pos; exact List.chain'_singleton _
  | cons c cs ih =>
    intro prev pos
    rw [leafGo]
    refine List.chain'_cons'.2 ⟨?_, ih c _⟩
    intro b hb
    rw [leafGo_head] at hb
    have hbe := Option.some.inj (Option.mem_def.1 hb)
    rw [← hbe]
    refine ⟨rfl, ?_⟩
    have h1 := hM prev
    have h2 := hM c
    unfold estW
    linarith

theorem leafGo_keys (M : String → ℚ) :
    ∀ (cs : List String) (prev : String) (pos : ℚ),
      (leafGo M prev pos cs).map Prod.fst = prev :: cs := by
  intro cs
  induction cs with
  | nil => intro prev pos; rfl
  | cons c cs ih =>
    intro prev pos
    rw [leafGo, List.map_cons, ih c]

/-- Lookup in the concatenation finds the recorded value when the first part
carries no duplicate keys. -/
theorem lookupA_append_of_mem :
    ∀ (xs ys : QA) (lf : String) (v : ℚ),
      (lf, v) ∈ xs → (xs.map Prod.fst).Nodup → lookupA (xs ++ ys) lf = some v := by
  intro xs
  induction xs with
  | nil => intro ys lf v h _; exact absurd h (List.not_mem_nil _)
  | cons kv xs ih =>
    intro ys lf v h hnd
    obtain ⟨k, w⟩ := kv
    rcases List.mem_cons.1 h with he | hmem
    · rw [Prod.mk.injEq] at he
      rw [List.cons_append, lookupA_cons, if_pos he.1.symm]
      exact congrArg some he.2.symm
    · have hk : lf ≠ k := by
        intro he2
        exact (List.nodup_cons.1 hnd).1
          (List.mem_map.2 ⟨(lf, v), hmem, he2⟩)
      rw [List.cons_append, lookupA_cons, if_neg (fun he2 => hk he2.symm)]
      exact ih ys lf v hmem (List.nodup_cons.1 hnd).2

/-- The fallback-spacing fold never overwrites an assigned position. -/
theorem l2_fold_preserve (su : QA) (spacing : ℚ) :
    ∀ (fam : List String) (loc : QA) (lf : String), (lookupA loc lf).isSome = true →
      lookupA (fam.foldl (fun loc n =>
        if (lookupA loc n).isSome then loc
        else (n, (lookupA su n).getD 0 * spacing) :: loc) loc) lf = lookupA loc lf := by
  intro fam
  induction fam with
  | nil => intro loc lf _; rfl
  | cons q fam ih =>
    intro loc lf hsome
    simp only [List.foldl_cons]
    by_cases hq : (lookupA loc q).isSome = true
    · rw [if_pos hq]
      exact ih loc lf hsome
    · rw [if_neg hq]
      have hql : q ≠ lf := fun he => hq (he ▸ hsome)
      have hlk : lookupA ((q, (lookupA su q).getD 0 * spacing) :: loc) lf = lookupA loc lf := by
        rw [lookupA_cons, if_neg hql]
      rw [ih _ lf (by rw [hlk]; exact hsome), hlk]

/-- The by-depth centering fold never touches entities without in-cluster
littles. -/
theorem c8_fold_leaf_preserve (people : People) (key : String) :
    ∀ (l : List String) (loc : QA) (lf : String), (inFamKids people key lf).length = 0 →
      lookupA (l.foldl (fun loc m =>
        if (inFamKids people key m).length = 0 then loc
        else (m, ((inFamKids people key m).map (fun c => (lookupA loc c).getD 0)).sum
          / ((inFamKids people key m).length : ℚ)) :: loc) loc) lf = lookupA loc lf := by
  intro l
  induction l with
  | nil => intro loc lf _; rfl
  | cons q rest ih =>
    intro loc lf hlf
    simp only [List.foldl_cons]
    by_cases hq : (inFamKids people key q).length = 0
    · rw [if_pos hq]
      exact ih loc lf hlf
    · rw [if_neg hq]
      rw [ih _ lf hlf, lookupA_cons]
      rw [if_neg (fun he => hq (by rw [he]; exact hlf))]

/-- C7: within every cluster, for non-negative label measurements, the
leaves taken in increasing unit-position order (the order of the sorted leaf
list) receive strictly increasing final local positions: the first leaf sits
at local position 0 and each subsequent leaf at the previous position plus
half the sum of the two adjacent estimated label widths plus the fixed
minimum gap of 8; the pixel order therefore never swaps two leaves relative
to the unit order. -/
theorem C7_leaf_positions (people : People) (M : String → ℚ) (key : String)
    (u0 l0 u1 l1 : QA) (spanq : ℚ) (s : PSt)
    (hM : ∀ x, 0 ≤ M x)
    (hpr : placeRoots people key (placeFuel people) (rootsOf people key) ⟨u0, 0, []⟩ = some s)
    (hpass : familyPass people M key u0 l0 = some (u1, l1, spanq)) :
    List.Sorted (fun a b => (lookupA s.unit a).getD 0 ≤ (lookupA s.unit b).getD 0)
      (sortLeaves s.unit (leavesOf people key)) ∧
    (∀ p ∈ leafPositions M (sortLeaves s.unit (leavesOf people key)),
      lookupA l1 p.1 = some p.2) ∧
    (∀ lf0 rest, sortLeaves s.unit (leavesOf people key) = lf0 :: rest →
      lookupA l1 lf0 = some 0) ∧
    List.Chain' (fun a b : String × ℚ =>
        b.2 = a.2 + (estW M a.1 + estW M b.1) / 2 + 8 ∧ a.2 < b.2)
      (leafPositions M (sortLeaves s.unit (leavesOf people key))) := by
  unfold familyPass at hpass
  rw [hpr] at hpass
  dsimp only at hpass
  by_cases hfam : (familyNodes people key).length = 0
  · rw [if_pos hfam] at hpass
    exact Option.noConfusion hpass
  · rw [if_neg hfam] at hpass
    obtain ⟨hu, hl⟩ := familyPass_match_inv hpass
    have hleaves_nd : (leavesOf people key).Nodup := by
      unfold leavesOf familyNodes
      exact ((namesOf_nodup people).filter _).filter _
    have hls_nd : (sortLeaves s.unit (leavesOf people key)).Nodup := by
      unfold sortLeaves
      exact (List.perm_insertionSort _ _).nodup_iff.2 hleaves_nd
    have hmain : ∀ p ∈ leafPositions M (sortLeaves s.unit (leavesOf people key)),
        lookupA l1 p.1 = some p.2 := by
      intro p hp
      obtain ⟨lf, v⟩ := p
      rcases hls : sortLeaves s.unit (leavesOf people key) with _ | ⟨lf0, rest⟩
      · rw [hls] at hp
        exact absurd hp (List.not_mem_nil _)
      · rw [hls] at hp
        simp only [leafPositions] at hp
        have hkeys := leafGo_keys M rest lf0 0
        have hlf_mem : lf ∈ lf0 :: rest := by
          rw [← hkeys]
          exact List.mem_map.2 ⟨(lf, v), hp, rfl⟩
        have hlf_leaf : (inFamKids people key lf).length = 0 := by
          have h1 : lf ∈ leavesOf people key := by
            have h0 : lf ∈ sortLeaves s.unit (leavesOf people key) := by
              rw [hls]
              exact hlf_mem
            unfold sortLeaves at h0
            exact (List.perm_insertionSort _ _).mem_iff.1 h0
          unfold leavesOf at h1
          have h2 := (List.mem_filter.1 h1).2
          rw [List.isEmpty_iff.1 h2]
          rfl
        have hnd2 : ((leafGo M lf0 0 rest).map Prod.fst).Nodup := by
          rw [hkeys, ← hls]
          exact hls_nd
        have hcat : lookupA (leafGo M lf0 0 rest ++ l0) lf = some v :=
          lookupA_append_of_mem _ l0 lf v hp hnd2
        have hsome : (lookupA (leafPositions M (lf0 :: rest) ++ l0) lf).isSome = true := by
          simp only [leafPositions]
          rw [hcat]
          rfl
        rw [← hl, hls]
        rw [c8_fold_leaf_preserve people key _ _ lf hlf_leaf]
        rw [l2_fold_preserve s.unit _ _ _ lf hsome]
        simp only [leafPositions]
        exact hcat
    haveI hTot : IsTotal String
        (fun a b => (lookupA s.unit a).getD 0 ≤ (lookupA s.unit b).getD 0) :=
      ⟨fun a b => le_total _ _⟩
    haveI hTrans : IsTrans String
        (fun a b => (lookupA s.unit a).getD 0 ≤ (lookupA s.unit b).getD 0) :=
      ⟨fun a b c h1 h2 => le_trans h1 h2⟩
    refine ⟨?_, hmain, ?_, ?_⟩
    · unfold sortLeaves
      exact List.sorted_insertionSort _ _
    · intro lf0 rest hls2
      have hmem0 : ((lf0, (0 : ℚ))) ∈ leafPositions M (sortLeaves s.unit (leavesOf people key)) := by
        rw [hls2]
        simp only [leafPositions]
        exact leafGo_mem_head M lf0 0 rest
      exact hmain (lf0, 0) hmem0
    · rcases hls : sortLeaves s.unit (leavesOf people key) with _ | ⟨lf0, rest⟩
      · exact List.chain'_nil
      · exact leafGo_chain M hM rest lf0 0

theorem C7_leaf_positions_witness :
    List.Sorted (fun a b => (lookupA [("r", (1 : ℚ)/2), ("v", 1), ("u", 0)] a).getD 0
        ≤ (lookupA [("r", (1 : ℚ)/2), ("v", 1), ("u", 0)] b).getD 0)
      (sortLeaves [("r", (1 : ℚ)/2), ("v", 1), ("u", 0)] (leavesOf exTwoLeaves "f")) ∧
    (∀ p ∈ leafPositions mZero
        (sortLeaves [("r", (1 : ℚ)/2), ("v", 1), ("u", 0)] (leavesOf exTwoLeaves "f")),
      lookupA [("r", (34 : ℚ)), ("r", 34), ("u", 0), ("v", 68)] p.1 = some p.2) ∧
    (∀ lf0 rest, sortLeaves [("r", (1 : ℚ)/2), ("v", 1), ("u", 0)]
        (leavesOf exTwoLeaves "f") = lf0 :: rest →
      lookupA [("r", (34 : ℚ)), ("r", 34), ("u", 0), ("v", 68)] lf0 = some 0) ∧
    List.Chain' (fun a b : String × ℚ =>
        b.2 = a.2 + (estW mZero a.1 + estW mZero b.1) / 2 + 8 ∧ a.2 < b.2)
      (leafPositions mZero
        (sortLeaves [("r", (1 : ℚ)/2), ("v", 1), ("u", 0)] (leavesOf exTwoLeaves "f"))) :=
  C7_leaf_positions exTwoLeaves mZero "f" [] []
    [("r", (1 : ℚ)/2), ("v", 1), ("u", 0)] [("r", (34 : ℚ)), ("r", 34), ("u", 0), ("v", 68)] 128
    ⟨[("r", (1 : ℚ)/2), ("v", 1), ("u", 0)], 3, []⟩
    (fun x => le_refl 0)
    (by with_unfolding_all decide)
    (by with_unfolding_all decide)

/-! ## C9: dual-cluster left and right -/

/-- Full inversion of the final span match of `familyPass`. -/
theorem familyPass_match_inv2 {A B : QA} {o1 o2 : Option ℚ} {u l : QA} {sp : ℚ}
    (h : (match o1, o2 with
          | some mx, some mn => some (A, B, mx - mn)
          | _, _ => none) = some (u, l, sp)) :
    ∃ mx mn, o1 = some mx ∧ o2 = some mn ∧ A = u ∧ B = l ∧ mx - mn = sp := by
  rcases o1 with _ | mx
  · exact Option.noConfusion h
  · rcases o2 with _ | mn
    · exact Option.noConfusion h
    · have h2 := Option.some.inj h
      simp only [Prod.mk.injEq] at h2
      exact ⟨mx, mn, rfl, rfl, h2.1, h2.2.1, h2.2.2⟩

theorem foldl_max_init : ∀ (xs : List ℚ) (a : ℚ), a ≤ xs.foldl max a := by
  intro xs
  induction xs with
  | nil => intro a; exact le_refl a
  | cons x xs ih => intro a; exact le_trans (le_max_left a x) (ih (max a x))

theorem foldl_max_mem : ∀ (xs : List ℚ) (a x : ℚ), x ∈ xs → x ≤ xs.foldl max a := by
  intro xs
  induction xs with
  | nil => intro a x h; exact absurd h (List.not_mem_nil _)
  | cons y xs ih =>
    intro a x h
    rcases List.mem_cons.1 h with rfl | h2
    · exact le_trans (le_max_right a x) (foldl_max_init xs (max a x))
    · exact ih (max a y) x h2

theorem foldl_min_init : ∀ (xs : List ℚ) (a : ℚ), xs.foldl min a ≤ a := by
  intro xs
  induction xs with
  | nil => intro a; exact le_refl a
  | cons x xs ih => intro a; exact le_trans (ih (min a x)) (min_le_left a x)

theorem foldl_min_mem : ∀ (xs : List ℚ) (a x : ℚ), x ∈ xs → xs.foldl min a ≤ x := by
  intro xs
  induction xs with
  | nil => intro a x h; exact absurd h (List.not_mem_nil _)
  | cons y xs ih =>
    intro a x h
    rcases List.mem_cons.1 h with rfl | h2
    · exact le_trans (foldl_min_init xs (min a x)) (min_le_right a x)
    · exact ih (min a y) x h2

theorem qMaxL_ge {l : List ℚ} {x m : ℚ} (hx : x ∈ l) (hm : qMaxL l = some m) : x ≤ m := by
  cases l with
  | nil => exact absurd hx (List.not_mem_nil _)
  | cons a as =>
    have hme := Option.some.inj hm
    rcases List.mem_cons.1 hx with rfl | h2
    · rw [← hme]; exact foldl_max_init as x
    · rw [← hme]; exact foldl_max_mem as a x h2

theorem qMinL_le {l : List ℚ} {x m : ℚ} (hx : x ∈ l) (hm : qMinL l = some m) : m ≤ x := by
  cases l with
  | nil => exact absurd hx (List.not_mem_nil _)
  | cons a as =>
    have hme := Option.some.inj hm
    rcases List.mem_cons.1 hx with rfl | h2
    · rw [← hme]; exact foldl_min_init as x
    · rw [← hme]; exact foldl_min_mem as a x h2

/-- The pixel span of a cluster is positive: it dominates the estimated
width of any of its members. -/
theorem qspan_pos (L : QA) (M : String → ℚ) (fam : List String) (n0 : String)
    (hn0 : n0 ∈ fam) (hM : 0 ≤ M n0) {mx mn : ℚ}
    (hmx : qMaxL (fam.map (fun n => (lookupA L n).getD 0 + estW M n / 2)) = some mx)
    (hmn : qMinL (fam.map (fun n => (lookupA L n).getD 0 - estW M n / 2)) = some mn) :
    0 < mx - mn := by
  have hx1 := qMaxL_ge (List.mem_map.2 ⟨n0, hn0, rfl⟩) hmx
  have hx2 := qMinL_le (List.mem_map.2 ⟨n0, hn0, rfl⟩) hmn
  unfold estW at hx1 hx2
  linarith

theorem familyPass_span_pos (people : People) (M : String → ℚ) (key : String)
    (u0 l0 u1 l1 : QA) (spanq : ℚ) (hM : ∀ x, 0 ≤ M x)
    (hkey : key ∈ familyKeysRaw people)
    (hpass : familyPass people M key u0 l0 = some (u1, l1, spanq)) : 0 < spanq := by
  unfold familyPass at hpass
  rcases hpr : placeRoots people key (placeFuel people) (rootsOf people key) ⟨u0, 0, []⟩
    with _ | s
  · rw [hpr] at hpass
    exact Option.noConfusion hpass
  · rw [hpr] at hpass
    dsimp only at hpass
    by_cases hfam : (familyNodes people key).length = 0
    · rw [if_pos hfam] at hpass
      exact Option.noConfusion hpass
    · rw [if_neg hfam] at hpass
      obtain ⟨mx, mn, hmx, hmn, hA, hB, hsp⟩ := familyPass_match_inv2 hpass
      obtain ⟨n0, hn0⟩ := List.exists_mem_of_ne_nil _ (familyNodes_ne_nil hkey)
      rw [← hsp]
      exact qspan_pos _ M _ n0 hn0 (hM n0) hmx hmn

/-- Every span the cluster loop records is positive. -/
theorem famFold_width_pos (people : People) (M : String → ℚ) (hM : ∀ x, 0 ≤ M x) :
    ∀ (ks : List String) (u l u1 l1 : QA) (ws : QA),
      (∀ k ∈ ks, k ∈ familyKeysRaw people) →
      famFold people M ks u l = some (u1, l1, ws) →
      ∀ kw ∈ ws, 0 < kw.2 := by
  intro ks
  induction ks with
  | nil =>
    intro u l u1 l1 ws _ h kw hkw
    have h2 := Option.some.inj h
    simp only [Prod.mk.injEq] at h2
    rw [← h2.2.2] at hkw
    exact absurd hkw (List.not_mem_nil _)
  | cons k ks ih =>
    intro u l u1 l1 ws hks h
    simp only [famFold] at h
    rcases hfp : familyPass people M k u l with _ | ⟨u2, l2, w2⟩
    · rw [hfp] at h
      exact Option.noConfusion h
    · rw [hfp] at h
      dsimp only at h
      rcases hff : famFold people M ks u2 l2 with _ | ⟨u3, l3, ws3⟩
      · rw [hff] at h
        exact Option.noConfusion h
      · rw [hff] at h
        dsimp only at h
        have h2 := Option.some.inj h
        simp only [Prod.mk.injEq] at h2
        intro kw hkw
        rw [← h2.2.2] at hkw
        rcases List.mem_cons.1 hkw with rfl | hmem
        · exact familyPass_span_pos people M k u l u2 l2 w2 hM
            (hks k (List.mem_cons_self _ _)) hfp
        · exact ih u2 l2 u3 l3 ws3 (fun x hx => hks x (List.mem_cons_of_mem _ hx)) hff kw hmem

/-- A key present in the key column of an association list has a looked-up
value witnessed by a member entry. -/
theorem lookupA_mem_of_key : ∀ (A : QA) (f : String), f ∈ A.map Prod.fst →
    ∃ v, lookupA A f = some v ∧ (f, v) ∈ A := by
  intro A
  induction A with
  | nil => intro f h; exact absurd h (List.not_mem_nil _)
  | cons kv A ih =>
    intro f h
    obtain ⟨k, w⟩ := kv
    by_cases hk : k = f
    · subst hk
      exact ⟨w, by rw [lookupA_cons, if_pos rfl], List.mem_cons_self _ _⟩
    · have h2 : f ∈ A.map Prod.fst := by
        rcases List.mem_cons.1 h with he | h3
        · exact absurd he.symm hk
        · exact h3
      obtain ⟨v, hv, hmem⟩ := ih f h2
      exact ⟨v, by rw [lookupA_cons, if_neg hk]; exact hv, List.mem_cons_of_mem _ hmem⟩

/-- Looking up the center list: base plus half span, for aligned key
columns. -/
theorem centersOf_lookup : ∀ (bs ws : QA), bs.map Prod.fst = ws.map Prod.fst →
    ∀ (f : String) (b w : ℚ), lookupA bs f = some b → lookupA ws f = some w →
    lookupA (centersOf bs ws) f = some (b + w / 2) := by
  intro bs
  induction bs with
  | nil => intro ws _ f b w hb _; exact Option.noConfusion hb
  | cons kb bs ih =>
    intro ws hkeys f b w hb hw
    obtain ⟨k, b0⟩ := kb
    cases ws with
    | nil => exact Option.noConfusion hw
    | cons kw ws =>
      obtain ⟨k2, w0⟩ := kw
      simp only [List.map_cons] at hkeys
      injection hkeys with h1 h2
      subst h1
      simp only [centersOf]
      by_cases hk : k = f
      · subst hk
        rw [lookupA_cons, if_pos rfl] at hb
        rw [lookupA_cons, if_pos rfl] at hw
        rw [lookupA_cons, if_pos rfl]
        rw [← Option.some.inj hb, ← Option.some.inj hw]
      · rw [lookupA_cons, if_neg hk] at hb
        rw [lookupA_cons, if_neg hk] at hw
        rw [lookupA_cons, if_neg hk]
        exact ih ws h2 f b w hb hw

/-- C9: for an entity declaring two or more clusters, whichever of its first
two declared clusters has its composited block strictly to the left of the
other in the final horizontal arrangement is reported first (as the left
cluster), regardless of the declared order. -/
theorem C9_dual_cluster (people : People) (M : String → ℚ) (cw ch : ℚ)
    (out : LayoutOut) (hM : ∀ x, 0 ≤ M x)
    (hrun : layoutRun people M cw ch = some out)
    (n : String) (hn : n ∈ namesOf people)
    (fa fb : String) (hf : (famOf people n).take 2 = [fa, fb])
    (h1 : fa ∈ out.keys) (h2 : fb ∈ out.keys) :
    (blockRight out fa < blockLeft out fb → (n, [fa, fb]) ∈ out.famOrder) ∧
    (blockRight out fb < blockLeft out fa → (n, [fb, fa]) ∈ out.famOrder) := by
  have hlen : 2 ≤ (famOf people n).length := by
    have h3 := congrArg List.length hf
    rw [List.length_take] at h3
    simp only [List.length_cons, List.length_nil] at h3
    omega
  unfold layoutRun at hrun
  dsimp only at hrun
  rcases hff : famFold people M (orderFamilies (familyKeysRaw people) (crossW people)) [] []
    with _ | ⟨u, l, ws⟩
  · rw [hff] at hrun
    exact Option.noConfusion hrun
  · rw [hff] at hrun
    dsimp only at hrun
    cases hca : coordsAll people M l ch
        ((scanBase ws 0).map (fun kb =>
          (kb.1, kb.2 + (cw / 2 - ((ws.map (fun kw => kw.2 + 80)).sum - 80) / 2)))) with
    | none =>
      rw [hca] at hrun
      exact Option.noConfusion hrun
    | some cs =>
      rw [hca] at hrun
      dsimp only at hrun
      have hout := Option.some.inj hrun
      subst hout
      dsimp only at h1 h2 ⊢
      have hksmem : ∀ k ∈ orderFamilies (familyKeysRaw people) (crossW people),
          k ∈ familyKeysRaw people := fun k hk => orderFamilies_mem.1 hk
      obtain ⟨u2, l2, ws2, hft, hwkeys⟩ :=
        famFold_total people M (orderFamilies (familyKeysRaw people) (crossW people)) [] []
          hksmem
      rw [hff] at hft
      have hft2 := Option.some.inj hft
      simp only [Prod.mk.injEq] at hft2
      rw [← hft2.2.2] at hwkeys
      have hbkeys : (((scanBase ws 0).map (fun kb =>
            (kb.1, kb.2 + (cw / 2 - ((ws.map (fun kw => kw.2 + 80)).sum - 80) / 2)))).map
          Prod.fst) = ws.map Prod.fst := by
        rw [List.map_map]
        have hcomp : (Prod.fst ∘ (fun kb : String × ℚ =>
            (kb.1, kb.2 + (cw / 2 - ((ws.map (fun kw => kw.2 + 80)).sum - 80) / 2))))
            = (Prod.fst : String × ℚ → String) := funext fun kb => rfl
        rw [hcomp, scanBase_fst]
      obtain ⟨wa, hwa, hmemwa⟩ := lookupA_mem_of_key ws fa (by rw [hwkeys]; exact h1)
      obtain ⟨wb, hwb, hmemwb⟩ := lookupA_mem_of_key ws fb (by rw [hwkeys]; exact h2)
      obtain ⟨ba, hba, hmemba⟩ := lookupA_mem_of_key _ fa (by rw [hbkeys, hwkeys]; exact h1)
      obtain ⟨bb, hbb, hmembb⟩ := lookupA_mem_of_key _ fb (by rw [hbkeys, hwkeys]; exact h2)
      have hwapos : 0 < wa :=
        famFold_width_pos people M hM _ [] [] u l ws hksmem hff (fa, wa) hmemwa
      have hwbpos : 0 < wb :=
        famFold_width_pos people M hM _ [] [] u l ws hksmem hff (fb, wb) hmemwb
      have hca2 := centersOf_lookup _ ws hbkeys fa ba wa hba hwa
      have hcb2 := centersOf_lookup _ ws hbkeys fb bb wb hbb hwb
      have hmem : ∀ pair : List String,
          pairSort (fun f => (lookupA (centersOf ((scanBase ws 0).map (fun kb =>
            (kb.1, kb.2 + (cw / 2 - ((ws.map (fun kw => kw.2 + 80)).sum - 80) / 2)))) ws) f).getD 0)
            ((famOf people n).take 2) = pair →
          (n, pair) ∈ famOrderOf people (centersOf ((scanBase ws 0).map (fun kb =>
            (kb.1, kb.2 + (cw / 2 - ((ws.map (fun kw => kw.2 + 80)).sum - 80) / 2)))) ws) := by
        intro pair hpair
        unfold famOrderOf
        apply List.mem_filterMap.2
        refine ⟨n, hn, ?_⟩
        dsimp only
        rw [if_pos hlen, hpair]
      constructor
      · intro hgeom
        unfold blockLeft blockRight at hgeom
        dsimp only at hgeom
        rw [hba, hwa, hbb] at hgeom
        simp only [Option.getD_some] at hgeom
        apply hmem
        rw [hf]
        simp only [pairSort]
        rw [if_neg]
        rw [hca2, hcb2]
        simp only [Option.getD_some]
        intro hlt
        linarith
      · intro hgeom
        unfold blockLeft blockRight at hgeom
        dsimp only at hgeom
        rw [hbb, hwb, hba] at hgeom
        simp only [Option.getD_some] at hgeom
        apply hmem
        rw [hf]
        simp only [pairSort]
        rw [if_pos]
        rw [hca2, hcb2]
        simp only [Option.getD_some]
        linarith

set_option maxRecDepth 100000 in
theorem C9_dual_cluster_witness :
    layoutRun exDual mZero 1000 800 = some
      ⟨[("a1", 0), ("b1", 0)], [("a1", 0), ("b1", 0)], ["fb", "fa"],
       [("fb", 60), ("fa", 60)], [("fb", 400), ("fa", 540)], [("fb", 430), ("fa", 570)],
       [("b1", 430, 200), ("a1", 570, 200)], [("a1", ["fb", "fa"])]⟩ ∧
    blockRight ⟨[("a1", 0), ("b1", 0)], [("a1", 0), ("b1", 0)], ["fb", "fa"],
       [("fb", 60), ("fa", 60)], [("fb", 400), ("fa", 540)], [("fb", 430), ("fa", 570)],
       [("b1", 430, 200), ("a1", 570, 200)], [("a1", ["fb", "fa"])]⟩ "fb"
      < blockLeft ⟨[("a1", 0), ("b1", 0)], [("a1", 0), ("b1", 0)], ["fb", "fa"],
       [("fb", 60), ("fa", 60)], [("fb", 400), ("fa", 540)], [("fb", 430), ("fa", 570)],
       [("b1", 430, 200), ("a1", 570, 200)], [("a1", ["fb", "fa"])]⟩ "fa" ∧
    ("a1", ["fb", "fa"]) ∈ (⟨[("a1", 0), ("b1", 0)], [("a1", 0), ("b1", 0)], ["fb", "fa"],
       [("fb", 60), ("fa", 60)], [("fb", 400), ("fa", 540)], [("fb", 430), ("fa", 570)],
       [("b1", 430, 200), ("a1", 570, 200)], [("a1", ["fb", "fa"])]⟩ : LayoutOut).famOrder :=
  ⟨by with_unfolding_all decide, by with_unfolding_all decide,
   (C9_dual_cluster exDual mZero 1000 800
      ⟨[("a1", 0), ("b1", 0)], [("a1", 0), ("b1", 0)], ["fb", "fa"],
       [("fb", 60), ("fa", 60)], [("fb", 400), ("fa", 540)], [("fb", 430), ("fa", 570)],
       [("b1", 430, 200), ("a1", 570, 200)], [("a1", ["fb", "fa"])]⟩
      (fun x => le_refl 0)
      (by with_unfolding_all decide)
      "a1" (by with_unfolding_all decide)
      "fa" "fb" (by with_unfolding_all decide)
      (by with_unfolding_all decide) (by with_unfolding_all decide)).2
     (by with_unfolding_all decide)⟩

/-! ## C2 (amended): the depth recurrence under unique ancestor paths -/

theorem rankedB_lt {people : People} {rank : String → Nat}
    (h : rankedB people rank = true) {x b : String}
    (hx : x ∈ depthUniv people) (hb : b ∈ bigsOf people x) : rank b < rank x := by
  unfold rankedB at h
  rw [List.all_eq_true] at h
  have h1 := h x hx
  rw [List.all_eq_true] at h1
  simpa using h1 b hb

theorem cnt_succ (people : People) (f : Nat) (x a : String) :
    cnt people (f + 1) x a
      = (if x = a then 1 else 0) + ((bigsOf people x).map (fun b => cnt people f b a)).sum :=
  rfl

theorem cnt_self (people : People) (f : Nat) (x : String) : 1 ≤ cnt people (f + 1) x x := by
  rw [cnt_succ, if_pos rfl]
  omega

theorem cnt_mono (people : People) : ∀ f1 f2 x a, f1 ≤ f2 →
    cnt people f1 x a ≤ cnt people f2 x a := by
  intro f1
  induction f1 with
  | zero => intro f2 x a _; simp [cnt]
  | succ g ih =>
    intro f2 x a h
    obtain ⟨g2, rfl⟩ : ∃ g2, f2 = g2 + 1 := ⟨f2 - 1, by omega⟩
    rw [cnt_succ, cnt_succ]
    refine Nat.add_le_add_left ?_ _
    refine List.sum_le_sum ?_
    intro b hb
    exact ih g2 b a (by omega)

/-- Under a rank certificate the path count is the same at every fuel beyond
the rank of the source. -/
theorem cnt_stable (people : People) (rank : String → Nat)
    (hrank : rankedB people rank = true) :
    ∀ N f1 f2 x a, x ∈ depthUniv people → rank x < f1 → rank x < f2 → f1 ≤ N → f2 ≤ N →
      cnt people f1 x a = cnt people f2 x a := by
  intro N
  induction N with
  | zero => intro f1 f2 x a _ h1 _ hN _; omega
  | succ N ih =>
    intro f1 f2 x a hx h1 h2 hN1 hN2
    obtain ⟨g1, rfl⟩ : ∃ g1, f1 = g1 + 1 := ⟨f1 - 1, by omega⟩
    obtain ⟨g2, rfl⟩ : ∃ g2, f2 = g2 + 1 := ⟨f2 - 1, by omega⟩
    rw [cnt_succ, cnt_succ]
    congr 1
    refine congrArg List.sum (List.map_congr_left ?_)
    intro b hb
    have hbu := bigs_mem_depthUniv hb
    have hrb := rankedB_lt hrank hx hb
    exact ih g1 g2 b a hbu (by omega) (by omega) (by omega) (by omega)

/-- The pure depth is likewise fuel-stable beyond the rank. -/
theorem depthPure_stable (people : People) (rank : String → Nat)
    (hrank : rankedB people rank = true) :
    ∀ N f1 f2 x, x ∈ depthUniv people → rank x < f1 → rank x < f2 → f1 ≤ N → f2 ≤ N →
      depthPure people f1 x = depthPure people f2 x := by
  intro N
  induction N with
  | zero => intro f1 f2 x _ h1 _ hN _; omega
  | succ N ih =>
    intro f1 f2 x hx h1 h2 hN1 hN2
    obtain ⟨g1, rfl⟩ : ∃ g1, f1 = g1 + 1 := ⟨f1 - 1, by omega⟩
    obtain ⟨g2, rfl⟩ : ∃ g2, f2 = g2 + 1 := ⟨f2 - 1, by omega⟩
    simp only [depthPure]
    by_cases hbs : (bigsOf people x).isEmpty
    · rw [if_pos hbs, if_pos hbs]
    · rw [if_neg hbs, if_neg hbs]
      congr 1
      refine congrArg maxList (List.map_congr_left ?_)
      intro b hb
      have hbu := bigs_mem_depthUniv hb
      have hrb := rankedB_lt hrank hx hb
      exact ih g1 g2 b hbu (by omega) (by omega) (by omega) (by omega)

/-- A name outside the depth universe is reached only by the trivial path. -/
theorem cnt_not_univ (people : People) {a : String} (ha : a ∉ depthUniv people) :
    ∀ f x, cnt people f x a = if x = a ∧ 1 ≤ f then 1 else 0 := by
  intro f
  induction f with
  | zero => intro x; simp [cnt]
  | succ g ih =>
    intro x
    rw [cnt_succ]
    have hz : ((bigsOf people x).map (fun b => cnt people g b a)).sum = 0 := by
      rw [List.sum_eq_zero_iff]
      intro v hv
      obtain ⟨b, hb, rfl⟩ := List.mem_map.1 hv
      rw [ih b, if_neg]
      rintro ⟨he, _⟩
      exact ha (he ▸ bigs_mem_depthUniv hb)
    rw [hz]
    by_cases hx : x = a
    · simp [hx]
    · simp [hx]

theorem maxList_map_add (c : Nat) : ∀ (l : List Nat), l ≠ [] →
    maxList (l.map (fun v => c + v)) = c + maxList l := by
  intro l
  induction l with
  | nil => intro h; exact absurd rfl h
  | cons x xs ih =>
    intro _
    rw [List.map_cons, maxList_cons, maxList_cons]
    cases xs with
    | nil => simp [maxList_nil]
    | cons y ys =>
      rw [ih (by simp)]
      omega

theorem length_le_sum_map (people : People) (l : List String) :
    l.length ≤ (l.map (fun x => (bigsOf people x).length + 1)).sum := by
  induction l with
  | nil => simp
  | cons x xs ih =>
    simp only [List.map_cons, List.sum_cons, List.length_cons]
    omega

/-- Any rank certificate can be compressed below the canonical depth fuel. -/
theorem rank_compress (people : People) (rank : String → Nat)
    (hrank : rankedB people rank = true) :
    ∃ rank2 : String → Nat, rankedB people rank2 = true ∧
      ∀ x ∈ depthUniv people, rank2 x < depthFuel people := by
  refine ⟨fun x => ((depthUniv people).filter (fun y => decide (rank y < rank x))).length,
    ?_, ?_⟩
  · unfold rankedB
    rw [List.all_eq_true]
    intro x hx
    rw [List.all_eq_true]
    intro b hb
    have hlt : rank b < rank x := rankedB_lt hrank hx hb
    simp only [decide_eq_true_eq]
    have hsub : List.Sublist ((depthUniv people).filter (fun y => decide (rank y < rank b)))
        ((depthUniv people).filter (fun y => decide (rank y < rank x))) := by
      refine List.monotone_filter_right _ ?_
      intro a ha
      simp only [decide_eq_true_eq] at ha ⊢
      omega
    rcases Nat.lt_or_ge (((depthUniv people).filter (fun y => decide (rank y < rank b))).length)
        (((depthUniv people).filter (fun y => decide (rank y < rank x))).length) with h | h
    · exact h
    · have heq := hsub.eq_of_length (Nat.le_antisymm hsub.length_le h)
      have hbmem : b ∈ (depthUniv people).filter (fun y => decide (rank y < rank x)) :=
        List.mem_filter.2 ⟨bigs_mem_depthUniv hb, by simpa using hlt⟩
      rw [← heq] at hbmem
      have := (List.mem_filter.1 hbmem).2
      simp at this
  · intro x hx
    show ((depthUniv people).filter (fun y => decide (rank y < rank x))).length
      < depthFuel people
    have h1 := List.length_filter_le (fun y => decide (rank y < rank x)) (depthUniv people)
    have h2 : (depthUniv people).length ≤ depthPotential people [] := by
      have h3 : (depthUniv people).filter (fun y => decide (y ∉ ([] : List String)))
          = depthUniv people := by
        apply List.filter_eq_self.2
        intro a _
        simp
      unfold depthPotential
      rw [h3]
      exact length_le_sum_map people (depthUniv people)
    unfold depthFuel
    omega

theorem member_le_sum_map (f : String → Nat) {l : List String} {b : String} (hb : b ∈ l) :
    f b ≤ (l.map f).sum :=
  List.single_le_sum (fun _ _ => Nat.zero_le _) _ (List.mem_map.2 ⟨b, hb, rfl⟩)

theorem one_le_sum_map_iff (f : String → Nat) (l : List String) :
    1 ≤ (l.map f).sum ↔ ∃ b ∈ l, 1 ≤ f b := by
  constructor
  · intro h
    by_contra hc
    push_neg at hc
    have hz : (l.map f).sum = 0 := by
      rw [List.sum_eq_zero_iff]
      intro v hv
      obtain ⟨b, hb, rfl⟩ := List.mem_map.1 hv
      have := hc b hb
      omega
    omega
  · rintro ⟨b, hb, hfb⟩
    exact le_trans hfb (member_le_sum_map f hb)

/-- Under a bounded rank certificate and unique bounded path counts from the
worklist, the depth recursion never meets its visited set, computes exactly
the pure depth of every worklist entry, and marks exactly the reachable
names. -/
theorem depthGo_pure (people : People) (rank : String → Nat)
    (hrank : rankedB people rank = true)
    (hrb : ∀ x ∈ depthUniv people, rank x < depthFuel people) :
    ∀ fuel ns vis d,
      (∀ n ∈ ns, n ∈ depthUniv people) →
      ns.length + depthPotential people vis < fuel →
      (∀ a, ((ns.map (fun n => cnt people (depthFuel people + 1) n a)).sum ≤ 1)) →
      (∀ n ∈ ns, ∀ a, 1 ≤ cnt people (depthFuel people + 1) n a → a ∉ vis) →
      ∃ vis2,
        depthGo people fuel vis ns d
          = some (ns.map (fun n => d + depthPure people (depthFuel people + 1) n), vis2) ∧
        (∀ x, x ∈ vis2 ↔ x ∈ vis ∨ ∃ n ∈ ns, 1 ≤ cnt people (depthFuel people + 1) n x) := by
  have hdecomp : ∀ m, m ∈ depthUniv people → ∀ a,
      cnt people (depthFuel people + 1) m a
        = (if m = a then 1 else 0)
          + ((bigsOf people m).map (fun b => cnt people (depthFuel people + 1) b a)).sum := by
    intro m hm a
    rw [cnt_succ]
    congr 1
    refine congrArg List.sum (List.map_congr_left ?_)
    intro b hb
    have hbu := bigs_mem_depthUniv hb
    have hrbb := hrb b hbu
    exact cnt_stable people rank hrank (depthFuel people + 1) (depthFuel people)
      (depthFuel people + 1) b a hbu (by omega) (by omega) (by omega) (by omega)
  have hpdecomp : ∀ m, m ∈ depthUniv people →
      depthPure people (depthFuel people + 1) m
        = if (bigsOf people m).isEmpty then 0
          else 1 + maxList ((bigsOf people m).map (depthPure people (depthFuel people + 1))) := by
    intro m hm
    simp only [depthPure]
    by_cases hbs : (bigsOf people m).isEmpty
    · rw [if_pos hbs, if_pos hbs]
    · rw [if_neg hbs, if_neg hbs]
      congr 1
      refine congrArg maxList (List.map_congr_left ?_)
      intro b hb
      have hbu := bigs_mem_depthUniv hb
      have hrbb := hrb b hbu
      exact depthPure_stable people rank hrank (depthFuel people + 1) (depthFuel people)
        (depthFuel people + 1) b hbu (by omega) (by omega) (by omega) (by omega)
  intro fuel
  induction fuel with
  | zero => intro ns vis d _ h _ _; omega
  | succ f ih =>
    intro ns vis d hmem hfuel hup hdisj
    cases ns with
    | nil =>
      refine ⟨vis, rfl, ?_⟩
      intro x
      simp
    | cons n ns =>
      have hnu : n ∈ depthUniv people := hmem n (List.mem_cons_self _ _)
      have hnv : n ∉ vis := fun hv =>
        hdisj n (List.mem_cons_self _ _) n (cnt_self people (depthFuel people) n) hv
      have hreach_n : ∀ a, (1 ≤ cnt people (depthFuel people + 1) n a)
          ↔ (a = n ∨ ∃ b ∈ bigsOf people n, 1 ≤ cnt people (depthFuel people + 1) b a) := by
        intro a
        rw [hdecomp n hnu a]
        constructor
        · intro h
          by_cases hna : n = a
          · exact Or.inl hna.symm
          · right
            rw [if_neg hna] at h
            exact (one_le_sum_map_iff _ _).1 (by omega)
        · rintro (rfl | ⟨b, hb, hcb⟩)
          · rw [if_pos rfl]
            omega
          · have h6 : cnt people (depthFuel people + 1) b a
                ≤ ((bigsOf people n).map
                  (fun b => cnt people (depthFuel people + 1) b a)).sum :=
              member_le_sum_map (fun z => cnt people (depthFuel people + 1) z a) hb
            omega
      simp only [depthGo]
      rw [if_neg hnv]
      by_cases hbs : (bigsOf people n).isEmpty
      · rw [if_pos hbs]
        have hbse : bigsOf people n = [] := List.isEmpty_iff.1 hbs
        have hmemT : ∀ m ∈ ns, m ∈ depthUniv people :=
          fun m hm => hmem m (List.mem_cons_of_mem _ hm)
        have hfuelT : ns.length + depthPotential people (n :: vis) < f := by
          have hins := depthPotential_insert people hnu hnv
          simp only [List.length_cons] at hfuel
          omega
        have hupT : ∀ a, ((ns.map (fun m => cnt people (depthFuel people + 1) m a)).sum ≤ 1) := by
          intro a
          have h1 := hup a
          simp only [List.map_cons, List.sum_cons] at h1
          omega
        have hdisjT : ∀ m ∈ ns, ∀ a, 1 ≤ cnt people (depthFuel people + 1) m a →
            a ∉ n :: vis := by
          intro m hm a hca
          rw [List.mem_cons]
          rintro (rfl | hv)
          · have h1 := hup a
            simp only [List.map_cons, List.sum_cons] at h1
            have h4 : cnt people (depthFuel people + 1) m a
                ≤ (ns.map (fun q => cnt people (depthFuel people + 1) q a)).sum :=
              member_le_sum_map (fun z => cnt people (depthFuel people + 1) z a) hm
            have h5 := cnt_self people (depthFuel people) a
            omega
          · exact hdisj m (List.mem_cons_of_mem _ hm) a hca hv
        obtain ⟨vis2, hrec, hmem2⟩ := ih ns (n :: vis) d hmemT hfuelT hupT hdisjT
        refine ⟨vis2, ?_, ?_⟩
        · rw [hrec]
          dsimp only
          have hp0 : depthPure people (depthFuel people + 1) n = 0 := by
            rw [hpdecomp n hnu, if_pos hbs]
          simp only [List.map_cons, hp0, Nat.add_zero]
        · intro x
          rw [hmem2 x]
          have hcn : (1 ≤ cnt people (depthFuel people + 1) n x) ↔ x = n := by
            rw [hreach_n x]
            simp [hbse]
          constructor
          · rintro (hx | ⟨m, hm, hc⟩)
            · rcases List.mem_cons.1 hx with he | hv
              · exact Or.inr ⟨n, List.mem_cons_self _ _,
                  by rw [he]; exact cnt_self people (depthFuel people) n⟩
              · exact Or.inl hv
            · exact Or.inr ⟨m, List.mem_cons_of_mem _ hm, hc⟩
          · rintro (hv | ⟨m, hm, hc⟩)
            · exact Or.inl (List.mem_cons_of_mem _ hv)
            · rcases List.mem_cons.1 hm with he | hm2
              · rw [he] at hc
                exact Or.inl (by rw [hcn.1 hc]; exact List.mem_cons_self _ _)
              · exact Or.inr ⟨m, hm2, hc⟩
      · rw [if_neg hbs]
        have hbsne : bigsOf people n ≠ [] := fun he => by rw [he] at hbs; exact hbs rfl
        have hins := depthPotential_insert people hnu hnv
        have hmemB : ∀ b ∈ bigsOf people n, b ∈ depthUniv people :=
          fun b hb => bigs_mem_depthUniv hb
        have hfuelB : (bigsOf people n).length + depthPotential people (n :: vis) < f := by
          simp only [List.length_cons] at hfuel
          omega
        have hupB : ∀ a, (((bigsOf people n).map
            (fun b => cnt people (depthFuel people + 1) b a)).sum ≤ 1) := by
          intro a
          have h1 := hup a
          simp only [List.map_cons, List.sum_cons] at h1
          have h2 := hdecomp n hnu a
          by_cases hna : n = a
          · rw [if_pos hna] at h2
            omega
          · rw [if_neg hna] at h2
            omega
        have hdisjB : ∀ b ∈ bigsOf people n, ∀ a,
            1 ≤ cnt people (depthFuel people + 1) b a → a ∉ n :: vis := by
          intro b hb a hca
          have hcna : 1 ≤ cnt people (depthFuel people + 1) n a :=
            (hreach_n a).2 (Or.inr ⟨b, hb, hca⟩)
          rw [List.mem_cons]
          rintro (he | hv)
          · have h1 := hup a
            simp only [List.map_cons, List.sum_cons] at h1
            have h2 := hdecomp n hnu a
            rw [if_pos he.symm] at h2
            have h3 : cnt people (depthFuel people + 1) b a
                ≤ ((bigsOf people n).map
                  (fun q => cnt people (depthFuel people + 1) q a)).sum :=
              member_le_sum_map (fun z => cnt people (depthFuel people + 1) z a) hb
            omega
          · exact hdisj n (List.mem_cons_self _ _) a hcna hv
        obtain ⟨vis2, hrec1, hmemv2⟩ := ih (bigsOf people n) (n :: vis) (d + 1)
          hmemB hfuelB hupB hdisjB
        have hsubv2 : (n :: vis) ⊆ vis2 := fun x hx => (hmemv2 x).2 (Or.inl hx)
        have hmemT : ∀ m ∈ ns, m ∈ depthUniv people :=
          fun m hm => hmem m (List.mem_cons_of_mem _ hm)
        have hfuelT : ns.length + depthPotential people vis2 < f := by
          have hpm := depthPotential_mono people hsubv2
          simp only [List.length_cons] at hfuel
          omega
        have hupT : ∀ a, ((ns.map (fun m => cnt people (depthFuel people + 1) m a)).sum ≤ 1) := by
          intro a
          have h1 := hup a
          simp only [List.map_cons, List.sum_cons] at h1
          omega
        have hdisjT : ∀ m ∈ ns, ∀ a, 1 ≤ cnt people (depthFuel people + 1) m a →
            a ∉ vis2 := by
          intro m hm a hca hv
          rcases (hmemv2 a).1 hv with hin | ⟨b, hb, hcb⟩
          · rcases List.mem_cons.1 hin with rfl | hviso
            · have h1 := hup a
              simp only [List.map_cons, List.sum_cons] at h1
              have h4 : cnt people (depthFuel people + 1) m a
                  ≤ (ns.map (fun q => cnt people (depthFuel people + 1) q a)).sum :=
                member_le_sum_map (fun z => cnt people (depthFuel people + 1) z a) hm
              have h5 := cnt_self people (depthFuel people) a
              omega
            · exact hdisj m (List.mem_cons_of_mem _ hm) a hca hviso
          · have hcna : 1 ≤ cnt people (depthFuel people + 1) n a :=
              (hreach_n a).2 (Or.inr ⟨b, hb, hcb⟩)
            have h1 := hup a
            simp only [List.map_cons, List.sum_cons] at h1
            have h4 : cnt people (depthFuel people + 1) m a
                ≤ (ns.map (fun q => cnt people (depthFuel people + 1) q a)).sum :=
              member_le_sum_map (fun z => cnt people (depthFuel people + 1) z a) hm
            omega
        obtain ⟨vis3, hrec2, hmemv3⟩ := ih ns vis2 d hmemT hfuelT hupT hdisjT
        refine ⟨vis3, ?_, ?_⟩
        · rw [hrec1]
          dsimp only
          rw [hrec2]
          dsimp only
          have hmaxv : maxList ((bigsOf people n).map
                (fun b => (d + 1) + depthPure people (depthFuel people + 1) b))
              = d + depthPure people (depthFuel people + 1) n := by
            have hv1 : ((bigsOf people n).map
                  (fun b => (d + 1) + depthPure people (depthFuel people + 1) b))
                = (((bigsOf people n).map (depthPure people (depthFuel people + 1))).map
                    (fun v => (d + 1) + v)) := by
              rw [List.map_map]
              rfl
            rw [hv1, maxList_map_add _ _ (by simpa using hbsne), hpdecomp n hnu, if_neg hbs]
            omega
          simp only [List.map_cons, hmaxv]
        · intro x
          rw [hmemv3 x, hmemv2 x]
          have hr := hreach_n x
          constructor
          · rintro ((hx | ⟨b, hb, hcb⟩) | ⟨m, hm, hc⟩)
            · rcases List.mem_cons.1 hx with he | hv
              · exact Or.inr ⟨n, List.mem_cons_self _ _,
                  by rw [he]; exact cnt_self people (depthFuel people) n⟩
              · exact Or.inl hv
            · exact Or.inr ⟨n, List.mem_cons_self _ _, hr.2 (Or.inr ⟨b, hb, hcb⟩)⟩
            · exact Or.inr ⟨m, List.mem_cons_of_mem _ hm, hc⟩
          · rintro (hv | ⟨m, hm, hc⟩)
            · exact Or.inl (Or.inl (List.mem_cons_of_mem _ hv))
            · rcases List.mem_cons.1 hm with he | hm2
              · rw [he] at hc
                rcases hr.1 hc with he2 | ⟨b, hb, hcb⟩
                · exact Or.inl (Or.inl (by rw [he2]; exact List.mem_cons_self _ _))
                · exact Or.inl (Or.inr ⟨b, hb, hcb⟩)
              · exact Or.inr ⟨m, hm2, hc⟩

/-- A single depth query computes the pure depth when its path counts are
unique. -/
theorem depthOf_eq_pure (people : People) (rank : String → Nat)
    (hrank : rankedB people rank = true)
    (n : String) (hn : n ∈ depthUniv people)
    (hupn : ∀ a, cnt people (depthFuel people + 1) n a ≤ 1) :
    depthOf people n = depthPure people (depthFuel people + 1) n := by
  obtain ⟨rank2, hrank2, hrb2⟩ := rank_compress people rank hrank
  have hmain := depthGo_pure people rank2 hrank2 hrb2 (depthFuel people) [n] [] 0
    (by intro m hm; rw [List.mem_singleton] at hm; subst hm; exact hn)
    (by unfold depthFuel; simp only [List.length_singleton]; omega)
    (by intro a
        simp only [List.map_cons, List.map_nil, List.sum_cons, List.sum_nil]
        have := hupn a
        omega)
    (by intro m _ a _; exact List.not_mem_nil a)
  obtain ⟨vis2, hrec, _⟩ := hmain
  unfold depthOf
  rw [hrec]
  simp only [List.map_cons, List.map_nil]
  omega

/-- C2 (amended): in any input whose bigs-relation is acyclic (witnessed by
a rank certificate), whose big references all resolve, and whose ancestor
paths are unique (no entity reaches any name by two distinct bigs-paths —
the shared visited set of the source makes the recurrence fail on diamond
ancestries), every entity e with at least one big satisfies
depth(e) ≥ 1 + depth(b) for every big b, with equality for at least one big,
and every entity with no bigs has depth 0. -/
theorem C2_depth_recurrence (people : People) (rank : String → Nat) (e : String)
    (hrank : rankedB people rank = true)
    (hup : uniquePathsB people = true)
    (hres : resolvesB people = true)
    (he : e ∈ namesOf people) :
    (bigsOf people e = [] → depthOf people e = 0) ∧
    (bigsOf people e ≠ [] →
      (∀ b ∈ bigsOf people e, 1 + depthOf people b ≤ depthOf people e) ∧
      (∃ b ∈ bigsOf people e, depthOf people e = 1 + depthOf people b)) := by
  have heu : e ∈ depthUniv people := name_mem_depthUniv (mem_namesOf.1 he)
  have hupE : ∀ a, cnt people (depthFuel people + 1) e a ≤ 1 := by
    intro a
    by_cases ha : a ∈ depthUniv people
    · unfold uniquePathsB at hup
      rw [List.all_eq_true] at hup
      have h1 := hup e he
      rw [List.all_eq_true] at h1
      simpa using h1 a ha
    · rw [cnt_not_univ people ha]
      split
      · omega
      · omega
  obtain ⟨rank2, hrank2, hrb2⟩ := rank_compress people rank hrank
  have hdecompE : ∀ a, cnt people (depthFuel people + 1) e a
      = (if e = a then 1 else 0)
        + ((bigsOf people e).map (fun b => cnt people (depthFuel people + 1) b a)).sum := by
    intro a
    rw [cnt_succ]
    congr 1
    refine congrArg List.sum (List.map_congr_left ?_)
    intro b hb
    have hbu := bigs_mem_depthUniv hb
    have hrbb := hrb2 b hbu
    exact cnt_stable people rank2 hrank2 (depthFuel people + 1) (depthFuel people)
      (depthFuel people + 1) b a hbu (by omega) (by omega) (by omega) (by omega)
  have hupB : ∀ b ∈ bigsOf people e, ∀ a, cnt people (depthFuel people + 1) b a ≤ 1 := by
    intro b hb a
    have h2 := hdecompE a
    have h3 : cnt people (depthFuel people + 1) b a
        ≤ ((bigsOf people e).map (fun z => cnt people (depthFuel people + 1) z a)).sum :=
      member_le_sum_map (fun z => cnt people (depthFuel people + 1) z a) hb
    have h4 := hupE a
    by_cases hea : e = a
    · rw [if_pos hea] at h2
      omega
    · rw [if_neg hea] at h2
      omega
  have hpe := depthOf_eq_pure people rank hrank e heu hupE
  have hpb : ∀ b ∈ bigsOf people e,
      depthOf people b = depthPure people (depthFuel people + 1) b :=
    fun b hb => depthOf_eq_pure people rank hrank b (bigs_mem_depthUniv hb) (hupB b hb)
  have hpd : depthPure people (depthFuel people + 1) e
      = if (bigsOf people e).isEmpty then 0
        else 1 + maxList ((bigsOf people e).map (depthPure people (depthFuel people + 1))) := by
    simp only [depthPure]
    by_cases hbs : (bigsOf people e).isEmpty
    · rw [if_pos hbs, if_pos hbs]
    · rw [if_neg hbs, if_neg hbs]
      congr 1
      refine congrArg maxList (List.map_congr_left ?_)
      intro b hb
      have hbu := bigs_mem_depthUniv hb
      have hrbb := hrb2 b hbu
      exact depthPure_stable people rank2 hrank2 (depthFuel people + 1) (depthFuel people)
        (depthFuel people + 1) b hbu (by omega) (by omega) (by omega) (by omega)
  constructor
  · intro hbe
    rw [hpe, hpd, if_pos (by simp [hbe])]
  · intro hbne
    have hbs : ¬ ((bigsOf people e).isEmpty = true) := by
      simpa [List.isEmpty_iff] using hbne
    have hkey : depthOf people e
        = 1 + maxList ((bigsOf people e).map (fun b => depthOf people b)) := by
      rw [hpe, hpd, if_neg hbs]
      congr 1
      exact congrArg maxList (List.map_congr_left fun b hb => (hpb b hb).symm)
    constructor
    · intro b hb
      rw [hkey]
      have h1 : depthOf people b ≤ maxList ((bigsOf people e).map (fun b => depthOf people b)) :=
        le_maxList (List.mem_map.2 ⟨b, hb, rfl⟩)
      omega
    · have hne : ((bigsOf people e).map (fun b => depthOf people b)) ≠ [] := by
        simpa using hbne
      have hatt := maxList_attained hne
      obtain ⟨b, hb, hv⟩ := List.mem_map.1 hatt
      exact ⟨b, hb, by rw [hkey, hv]⟩

theorem C2_depth_recurrence_witness :
    (rankedB exChain rankChain = true) ∧
    (uniquePathsB exChain = true) ∧
    ((bigsOf exChain "e" = [] → depthOf exChain "e" = 0) ∧
     (bigsOf exChain "e" ≠ [] →
       (∀ b ∈ bigsOf exChain "e", 1 + depthOf exChain b ≤ depthOf exChain "e") ∧
       (∃ b ∈ bigsOf exChain "e", depthOf exChain "e" = 1 + depthOf exChain b))) :=
  ⟨by with_unfolding_all decide, by with_unfolding_all decide,
   C2_depth_recurrence exChain rankChain "e" (by with_unfolding_all decide)
     (by with_unfolding_all decide) (by with_unfolding_all decide)
     (by with_unfolding_all decide)⟩

/-! ## C1: correctness of the breadth-first shortest-path search -/

theorem getLast?_eq_getLastD {p : List String} (h : p ≠ []) :
    p.getLast? = some (p.getLastD "") := by
  cases p with
  | nil => exact absurd rfl h
  | cons a as =>
    rw [List.getLastD_eq_getLast?]
    cases hq : (a :: as).getLast? with
    | none => simp at hq
    | some v => rfl

theorem chainB_concat (adj : String → List String) (nb : String) :
    ∀ p : List String, p ≠ [] →
      chainB adj (p ++ [nb]) = (chainB adj p && (adj (p.getLastD "")).contains nb) := by
  intro p
  induction p with
  | nil => intro h; exact absurd rfl h
  | cons a as ih =>
    intro _
    cases as with
    | nil => simp [chainB]
    | cons b bs =>
      have h2 := ih (by simp)
      simp only [List.cons_append, List.append_eq, chainB] at h2 ⊢
      rw [h2]
      simp [Bool.and_assoc, List.getLastD_cons]

theorem isPathB_iff (adj : String → List String) (s t : String) (p : List String) :
    isPathB adj s t p = true ↔
      p.head? = some s ∧ p.getLast? = some t ∧ chainB adj p = true := by
  unfold isPathB
  simp [Bool.and_eq_true, and_assoc]

theorem isPathB_ne_nil {adj : String → List String} {s t : String} {p : List String}
    (h : isPathB adj s t p = true) : p ≠ [] := by
  intro he
  rw [he] at h
  simp [isPathB] at h

theorem head?_append_left (xs ys : List String) (h : xs ≠ []) :
    (xs ++ ys).head? = xs.head? := by
  cases xs with
  | nil => exact absurd rfl h
  | cons a t => rfl

theorem getLastD_concat (pre : List String) (y d : String) :
    (pre ++ [y]).getLastD d = y := by
  rw [List.getLastD_eq_getLast? _ _, List.getLast?_concat]
  rfl

theorem getLastD_cons_cons (a b : String) (l : List String) (d : String) :
    (a :: b :: l).getLastD d = (b :: l).getLastD d := by
  rw [List.getLastD_eq_getLast? _ _, List.getLastD_eq_getLast? _ _,
    List.getLast?_cons_cons]

/-- Walking a valid path whose endpoint is unvisited finds a boundary edge:
a visited name with an unvisited neighbor, together with a valid path to it
shorter than the walked path. -/
theorem cross_aux (people : People) (p1 : String) (vis : List String) :
    ∀ (tail pre : List String) (y : String),
      isPathB (pathAdj people) p1 y (pre ++ [y]) = true →
      y ∈ vis →
      chainB (pathAdj people) (y :: tail) = true →
      (y :: tail).getLastD "" ∉ vis →
      ∃ (y2 w : String) (pre2 : List String),
        y2 ∈ vis ∧ w ∉ vis ∧ w ∈ pathAdj people y2 ∧
        isPathB (pathAdj people) p1 y2 (pre2 ++ [y2]) = true ∧
        (pre2 ++ [y2]).length + 1 ≤ (pre ++ y :: tail).length := by
  intro tail
  induction tail with
  | nil =>
    intro pre y hpath hy _ hz
    exact absurd hy (by simpa using hz)
  | cons w tail ih =>
    intro pre y hpath hy hchain hz
    simp only [chainB, Bool.and_eq_true] at hchain
    have hadj : w ∈ pathAdj people y := by simpa using hchain.1
    by_cases hw : w ∈ vis
    · have hpath2 : isPathB (pathAdj people) p1 w ((pre ++ [y]) ++ [w]) = true := by
        rw [isPathB_iff] at hpath ⊢
        obtain ⟨hh, hl, hc⟩ := hpath
        refine ⟨?_, List.getLast?_concat _, ?_⟩
        · rw [head?_append_left _ _ (by simp)]
          exact hh
        · rw [chainB_concat _ _ _ (by simp), getLastD_concat]
          simp only [Bool.and_eq_true]
          exact ⟨hc, by simpa using hadj⟩
      have hz2 : (w :: tail).getLastD "" ∉ vis := by
        rw [getLastD_cons_cons] at hz
        exact hz
      obtain ⟨y2, w2, pre2, a1, a2, a3, a4, a5⟩ :=
        ih (pre ++ [y]) w hpath2 hw hchain.2 hz2
      refine ⟨y2, w2, pre2, a1, a2, a3, a4, ?_⟩
      simp only [List.length_append, List.length_cons, List.length_singleton,
        List.length_nil] at a5 ⊢
      omega
    · refine ⟨y, w, pre, hy, hw, hadj, hpath, ?_⟩
      simp only [List.length_append, List.length_cons, List.length_singleton,
        List.length_nil]
      omega

/-- Any valid path from the source to an unvisited name is at least one
longer than some queue path, under the invariant. -/
theorem bfs_cross (people : People) (p1 target : String)
    (queue : List (List String)) (vis : List String)
    (hinv : bfsInv people p1 target queue vis) :
    ∀ (z : String), z ∉ vis → ∀ q, isPathB (pathAdj people) p1 z q = true →
      ∃ r ∈ queue, r.length + 1 ≤ q.length := by
  obtain ⟨hI1, hI2, hI3, hI4, hI5, hI7⟩ := hinv
  intro z hz q hq
  have hqne : q ≠ [] := isPathB_ne_nil hq
  rw [isPathB_iff] at hq
  obtain ⟨hh, hl, hc⟩ := hq
  obtain ⟨tail, rfl⟩ : ∃ tail, q = p1 :: tail := by
    cases q with
    | nil => exact absurd rfl hqne
    | cons a t =>
      refine ⟨t, ?_⟩
      simp only [List.head?_cons, Option.some.injEq] at hh
      rw [hh]
  have hstart : isPathB (pathAdj people) p1 p1 (([] : List String) ++ [p1]) = true := by
    rw [isPathB_iff]
    refine ⟨rfl, rfl, rfl⟩
  have hzlast : (p1 :: tail).getLastD "" ∉ vis := by
    have : (p1 :: tail).getLast? = some ((p1 :: tail).getLastD "") :=
      getLast?_eq_getLastD (by simp)
    rw [hl] at this
    have hz2 := Option.some.inj this
    rw [← hz2]
    exact hz
  obtain ⟨y2, w, pre2, a1, a2, a3, a4, a5⟩ :=
    cross_aux people p1 vis tail [] p1 hstart hI3 hc hzlast
  rcases hI4 y2 a1 with ⟨r, hr, hre⟩ | hclosed
  · refine ⟨r, hr, ?_⟩
    have h5 := hI5 r hr (pre2 ++ [y2]) (by rw [hre]; exact a4)
    simp only [List.nil_append] at a5
    omega
  · exact absurd (hclosed w a3) a2

/-- What one expansion step enqueues: the queue is extended with one path
per newly visited neighbor, and the visited set becomes its union with the
neighbor list. -/
theorem bfsEnqueue_shape (path : List String) :
    ∀ (nbs : List String) (q : List (List String)) (vis : List String),
      ∃ extra,
        (bfsEnqueue path nbs q vis).1 = q ++ extra ∧
        (∀ e ∈ extra, ∃ nb, e = path ++ [nb] ∧ nb ∈ nbs ∧ nb ∉ vis) ∧
        (∀ x, x ∈ (bfsEnqueue path nbs q vis).2 ↔ x ∈ vis ∨ x ∈ nbs) ∧
        (∀ x, x ∈ (bfsEnqueue path nbs q vis).2 → x ∉ vis → (path ++ [x]) ∈ extra) := by
  intro nbs
  induction nbs with
  | nil =>
    intro q vis
    refine ⟨[], by simp [bfsEnqueue], by simp, ?_, ?_⟩
    · intro x
      simp [bfsEnqueue]
    · intro x hx hnx
      simp only [bfsEnqueue] at hx
      exact absurd hx hnx
  | cons nb rest ih =>
    intro q vis
    by_cases hv : nb ∈ vis
    · obtain ⟨extra, h1, h2, h3, h4⟩ := ih q vis
      have hstep : bfsEnqueue path (nb :: rest) q vis = bfsEnqueue path rest q vis := by
        simp [bfsEnqueue, hv]
      rw [hstep]
      refine ⟨extra, h1, ?_, ?_, h4⟩
      · intro e he
        obtain ⟨nb2, he1, he2, he3⟩ := h2 e he
        exact ⟨nb2, he1, List.mem_cons_of_mem _ he2, he3⟩
      · intro x
        rw [h3 x]
        constructor
        · rintro (hx | hx)
          · exact Or.inl hx
          · exact Or.inr (List.mem_cons_of_mem _ hx)
        · rintro (hx | hx)
          · exact Or.inl hx
          · rcases List.mem_cons.1 hx with he | hx2
            · exact Or.inl (he ▸ hv)
            · exact Or.inr hx2
    · obtain ⟨extra, h1, h2, h3, h4⟩ := ih (q ++ [path ++ [nb]]) (nb :: vis)
      have hstep : bfsEnqueue path (nb :: rest) q vis
          = bfsEnqueue path rest (q ++ [path ++ [nb]]) (nb :: vis) := by
        simp [bfsEnqueue, hv]
      rw [hstep]
      refine ⟨[path ++ [nb]] ++ extra, ?_, ?_, ?_, ?_⟩
      · rw [h1, List.append_assoc]
      · intro e he
        rcases List.mem_cons.1 he with he1 | he2
        · exact ⟨nb, he1, List.mem_cons_self _ _, hv⟩
        · obtain ⟨nb2, g1, g2, g3⟩ := h2 e he2
          refine ⟨nb2, g1, List.mem_cons_of_mem _ g2, ?_⟩
          intro hmem
          exact g3 (List.mem_cons_of_mem _ hmem)
      · intro x
        rw [h3 x]
        simp only [List.mem_cons]
        tauto
      · intro x hx hnx
        by_cases hxnb : x = nb
        · subst hxnb
          exact List.mem_cons_self _ _
        · have := h4 x hx (by
            rw [List.mem_cons]
            rintro (he | hxe)
            · exact hxnb he
            · exact hnx hxe)
          exact List.mem_cons_of_mem _ this

/-- The BFS loop, run under its invariant, returns a shortest valid path or
correctly reports that no valid path exists. -/
theorem bfsGo_correct (people : People) (p1 target : String) :
    ∀ (fuel : Nat) (queue : List (List String)) (vis : List String),
      bfsInv people p1 target queue vis →
      ∀ res, bfsGo people target fuel queue vis = some res →
      (∀ p, res = some p →
        isPathB (pathAdj people) p1 target p = true ∧
        ∀ q, isPathB (pathAdj people) p1 target q = true → p.length ≤ q.length) ∧
      (res = none → ∀ q, isPathB (pathAdj people) p1 target q ≠ true) := by
  intro fuel
  induction fuel with
  | zero => intro queue vis _ res h; simp [bfsGo] at h
  | succ f ih =>
    intro queue vis hinv res h
    cases queue with
    | nil =>
      simp only [bfsGo, Option.some.injEq] at h
      subst h
      obtain ⟨hI1, hI2, hI3, hI4, hI5, hI7⟩ := hinv
      refine ⟨?_, ?_⟩
      · intro p hp
        exact absurd hp (by simp)
      · intro _ q hq
        have htnv : target ∉ vis := by
          rcases hI7 with h7 | ⟨r, hr, _⟩
          · exact h7
          · exact absurd hr (List.not_mem_nil _)
        obtain ⟨r, hr, _⟩ := bfs_cross people p1 target [] vis
          ⟨hI1, hI2, hI3, hI4, hI5, hI7⟩ target htnv q hq
        exact absurd hr (List.not_mem_nil _)
    | cons h0 rest =>
      obtain ⟨hI1, hI2, hI3, hI4, hI5, hI7⟩ := hinv
      obtain ⟨⟨hh0, hc0⟩, hl0v⟩ := hI1 h0 (List.mem_cons_self _ _)
      have hne0 : h0 ≠ [] := by
        intro he
        rw [he] at hh0
        simp at hh0
      simp only [bfsGo] at h
      by_cases hcur : h0.getLastD "" = target
      · rw [if_pos hcur] at h
        have hres := Option.some.inj h
        refine ⟨?_, ?_⟩
        · intro p hp
          rw [← hres] at hp
          have hpe := Option.some.inj hp
          subst hpe
          constructor
          · rw [isPathB_iff]
            refine ⟨hh0, ?_, hc0⟩
            rw [getLast?_eq_getLastD hne0, hcur]
          · intro q hq
            exact hI5 h0 (List.mem_cons_self _ _) q (by rw [hcur]; exact hq)
        · intro hnone
          rw [← hres] at hnone
          exact absurd hnone (by simp)
      · rw [if_neg hcur] at h
        obtain ⟨extra, hq1, hextra, hvis2, hcover⟩ :=
          bfsEnqueue_shape h0 (pathAdj people (h0.getLastD "")) rest vis
        have hrel := (List.pairwise_cons.1 hI2).1
        have hrestpw := (List.pairwise_cons.1 hI2).2
        have hinvOld : bfsInv people p1 target (h0 :: rest) vis :=
          ⟨fun p hp => ⟨⟨(hI1 p hp).1.1, (hI1 p hp).1.2⟩, (hI1 p hp).2⟩,
            hI2, hI3, hI4, hI5, hI7⟩
        have hinvNew : bfsInv people p1 target (rest ++ extra)
            (bfsEnqueue h0 (pathAdj people (h0.getLastD "")) rest vis).2 := by
          refine ⟨?_, ?_, ?_, ?_, ?_, ?_⟩
          · intro p hp
            rcases List.mem_append.1 hp with hp1 | hp2
            · have hold := hI1 p (List.mem_cons_of_mem _ hp1)
              exact ⟨hold.1, (hvis2 _).2 (Or.inl hold.2)⟩
            · obtain ⟨nb, rfl, hnbadj, hnbnv⟩ := hextra p hp2
              refine ⟨⟨?_, ?_⟩, ?_⟩
              · rw [head?_append_left _ _ hne0]
                exact hh0
              · rw [chainB_concat _ _ _ hne0]
                simp only [Bool.and_eq_true]
                exact ⟨hc0, by simpa using hnbadj⟩
              · rw [getLastD_concat]
                exact (hvis2 _).2 (Or.inr hnbadj)
          · rw [List.pairwise_append]
            refine ⟨hrestpw, ?_, ?_⟩
            · refine List.pairwise_of_forall_mem_list ?_
              intro a ha b hb
              obtain ⟨nb1, rfl, _, _⟩ := hextra a ha
              obtain ⟨nb2, rfl, _, _⟩ := hextra b hb
              simp
            · intro a ha b hb
              obtain ⟨nb2, rfl, _, _⟩ := hextra b hb
              have hw := hrel a ha
              simp only [List.length_append, List.length_singleton]
              omega
          · exact (hvis2 _).2 (Or.inl hI3)
          · intro z hz
            by_cases hzv : z ∈ vis
            · rcases hI4 z hzv with ⟨r, hr, hre⟩ | hclosed
              · rcases List.mem_cons.1 hr with he | hr2
                · right
                  intro nb hnb
                  have hz2 : z = h0.getLastD "" := by rw [← hre, he]
                  rw [hz2] at hnb
                  exact (hvis2 _).2 (Or.inr hnb)
                · exact Or.inl ⟨r, List.mem_append_left _ hr2, hre⟩
              · right
                intro nb hnb
                exact (hvis2 _).2 (Or.inl (hclosed nb hnb))
            · left
              have hmem := hcover z hz hzv
              refine ⟨h0 ++ [z], List.mem_append_right _ hmem, ?_⟩
              exact getLastD_concat _ _ _
          · intro p hp q hq
            rcases List.mem_append.1 hp with hp1 | hp2
            · exact hI5 p (List.mem_cons_of_mem _ hp1) q hq
            · obtain ⟨nb, rfl, hnbadj, hnbnv⟩ := hextra p hp2
              rw [getLastD_concat] at hq
              obtain ⟨r, hr, hrlen⟩ :=
                bfs_cross people p1 target (h0 :: rest) vis hinvOld nb hnbnv q hq
              have hlen0 : h0.length ≤ r.length := by
                rcases List.mem_cons.1 hr with he | hr2
                · rw [he]
                · exact (hrel r hr2).1
              simp only [List.length_append, List.length_singleton]
              omega
          · by_cases htv : target ∈ (bfsEnqueue h0 (pathAdj people (h0.getLastD "")) rest vis).2
            · right
              by_cases htvold : target ∈ vis
              · rcases hI7 with h7 | ⟨r, hr, hre⟩
                · exact absurd htvold h7
                · rcases List.mem_cons.1 hr with he | hr2
                  · exact absurd (by rw [← he]; exact hre) hcur
                  · exact ⟨r, List.mem_append_left _ hr2, hre⟩
              · have hmem := hcover target htv htvold
                exact ⟨h0 ++ [target], List.mem_append_right _ hmem, getLastD_concat _ _ _⟩
            · exact Or.inl htv
        rw [hq1] at h
        exact ih (rest ++ extra)
          (bfsEnqueue h0 (pathAdj people (h0.getLastD "")) rest vis).2 hinvNew res h

/-- C1: for every input record set in which both endpoints exist, the
search returns a path that starts at the source, ends at the target,
follows undirected relationship edges (littles and bigs), and has minimum
entity count among all such paths; if no such path exists it reports the
no-path outcome. -/
theorem C1_bfs_shortest_path (people : People) (p1 p2 : String)
    (h1 : p1 ∈ people.map Person.name) (h2 : p2 ∈ people.map Person.name) :
    (∃ p, findPath people p1 p2 = .path p ∧
      isPathB (pathAdj people) p1 p2 p = true ∧
      ∀ q, isPathB (pathAdj people) p1 p2 q = true → p.length ≤ q.length) ∨
    (findPath people p1 p2 = .noPath ∧
      ∀ q, isPathB (pathAdj people) p1 p2 q ≠ true) := by
  have hinv0 : bfsInv people p1 p2 [[p1]] [p1] := by
    refine ⟨?_, ?_, ?_, ?_, ?_, ?_⟩
    · intro p hp
      rw [List.mem_singleton] at hp
      subst hp
      exact ⟨⟨rfl, rfl⟩, by simp⟩
    · simp
    · simp
    · intro z hz
      rw [List.mem_singleton] at hz
      subst hz
      exact Or.inl ⟨[z], by simp, rfl⟩
    · intro p hp q hq
      rw [List.mem_singleton] at hp
      subst hp
      have hqne := isPathB_ne_nil hq
      simp only [List.length_singleton]
      cases q with
      | nil => exact absurd rfl hqne
      | cons a t => simp
    · by_cases ht : p2 ∈ ([p1] : List String)
      · right
        refine ⟨[p1], by simp, ?_⟩
        rw [List.mem_singleton] at ht
        rw [ht]
        rfl
      · exact Or.inl ht
  unfold findPath
  rw [if_neg (fun hn => hn h1), if_neg (fun hn => hn h2)]
  have htot := bfsGo_total people p1 p2 (bfsFuel people p1) [[p1]] [p1] (by
    unfold bfsFuel
    have := List.length_filter_le (fun x => decide (x ∉ ([p1] : List String)))
      (bfsUniv people p1)
    simp only [List.length_cons, List.length_nil]
    omega)
  cases hbfs : bfsGo people p2 (bfsFuel people p1) [[p1]] [p1] with
  | none =>
    rw [hbfs] at htot
    simp at htot
  | some res =>
    have hc := bfsGo_correct people p1 p2 (bfsFuel people p1) [[p1]] [p1] hinv0 res hbfs
    cases res with
    | some p =>
      left
      obtain ⟨hpath, hmin⟩ := hc.1 p rfl
      exact ⟨p, rfl, hpath, hmin⟩
    | none =>
      right
      exact ⟨rfl, hc.2 rfl⟩

theorem C1_bfs_shortest_path_witness :
    ("Alice" ∈ exBfs.map Person.name) ∧ ("Carol" ∈ exBfs.map Person.name) ∧
    findPath exBfs "Alice" "Carol" = .path ["Alice", "Bob", "Carol"] ∧
    (["Alice", "Bob", "Carol"] : List String).length = 3 ∧
    ((∃ p, findPath exBfs "Alice" "Carol" = .path p ∧
      isPathB (pathAdj exBfs) "Alice" "Carol" p = true ∧
      ∀ q, isPathB (pathAdj exBfs) "Alice" "Carol" q = true → p.length ≤ q.length) ∨
     (findPath exBfs "Alice" "Carol" = .noPath ∧
      ∀ q, isPathB (pathAdj exBfs) "Alice" "Carol" q ≠ true)) :=
  ⟨by with_unfolding_all decide, by with_unfolding_all decide,
   by with_unfolding_all decide, by with_unfolding_all decide,
   C1_bfs_shortest_path exBfs "Alice" "Carol"
     (by with_unfolding_all decide) (by with_unfolding_all decide)⟩

/-- The strict-depth proviso of the amended C8 is not implied by
littles-acyclicity: the littles relation of `exDiamond` is acyclic
(certified by `rankDiamond`), yet the diamond bigs-ancestry of `e`
equalizes the computed depths of `b2` and its little `e`, the finalization
sweep processes `b2` first, and the parent-centering property fails for
`b2` even under non-negative widths. -/
theorem exDiamond_acyclic_mean_fails :
    littlesRankedB exDiamond rankDiamond = true ∧
    depthOf exDiamond "b2" = 2 ∧
    depthOf exDiamond "e" = 2 ∧
    inFamKids exDiamond "f" "b2" = ["e"] ∧
    layoutLocal exDiamond mDiamond 1000 800 "b2" = some (112 / 3) ∧
    layoutKidsMean exDiamond mDiamond 1000 800 "b2" = some 44 := by
  with_unfolding_all decide

end FamilyTree
